import Mathlib

/-!
Verification of the npm-style version-range constraint engine of
go-npm-version (`pkg/constraint.go`, `pkg/version.go`).

The constraint engine (grammar, tokenizer, comparator construction,
pre-release gate, operator predicates, Check, serialization) is embedded
from the Go source.  The semantic-version value type (`semver.Version`
from the external goversion package) is an external capability consumed
by this repository; its operations are modelled from the spec (§3, §4.4,
§6): component values are a concrete number, a string identifier, or the
wildcard marker; versions carry major/minor/patch components and a
pre-release identifier list; build metadata is ignored for comparison and
therefore not carried.
-/

namespace Npm

abbrev Chars := List Char

/-! ## Version components (modelled from the spec) -/

/-- Modelled from the spec: a version component slot (spec §3 "Component
value") is a concrete non-negative integer, a textual identifier (used for
pre-release identifiers and for degenerate non-numeric components), or the
wildcard ("any") marker.  `inf` is the infinite upper boundary used by the
tilde/caret bump operations when the major component is a wildcard
(spec §4.4 "boundary is infinite"). -/
inductive Part where
  | num (n : Nat)
  | str (s : Chars)
  | any
  | inf
deriving DecidableEq, Repr

def Part.isAnyP : Part → Bool
  | .any => true
  | _ => false

def Part.isZero : Part → Bool
  | .num 0 => true
  | _ => false

def succPart : Part → Part
  | .num n => .num (n + 1)
  | p => p

def charsCompare : Chars → Chars → Ordering
  | [], [] => .eq
  | [], _ :: _ => .lt
  | _ :: _, [] => .gt
  | a :: as, b :: bs => (compare a b).then (charsCompare as bs)

/-- Modelled from the spec: comparison of two component values.  A
wildcard compares equal to everything (this is what makes `3.x` match
`3.2.1` through the equality operator); numeric components compare
numerically; numeric identifiers rank below alphanumeric ones and
alphanumeric identifiers compare lexicographically (semver precedence);
the infinite boundary ranks above everything. -/
def partCompare : Part → Part → Ordering
  | .any, _ => .eq
  | _, .any => .eq
  | .inf, .inf => .eq
  | .inf, _ => .gt
  | _, .inf => .lt
  | .num a, .num b => compare a b
  | .num _, .str _ => .lt
  | .str _, .num _ => .gt
  | .str a, .str b => charsCompare a b

def preLex : List Part → List Part → Ordering
  | [], [] => .eq
  | [], _ :: _ => .lt
  | _ :: _, [] => .gt
  | a :: as, b :: bs => (partCompare a b).then (preLex as bs)

/-- Modelled from the spec: precedence of pre-release identifier lists.
A wildcard pre-release list matches anything; an absent pre-release list
ranks above any concrete pre-release list (a release is newer than its
pre-releases); otherwise identifiers compare pairwise with a shorter
prefix ranking lower. -/
def partsCompare (a b : List Part) : Ordering :=
  if a.any Part.isAnyP || b.any Part.isAnyP then .eq
  else
    match a, b with
    | [], [] => .eq
    | [], _ :: _ => .gt
    | _ :: _, [] => .lt
    | _, _ => preLex a b

/-- Modelled from the spec (§3, §6): an immutable semantic-version value
with major/minor/patch component slots and a pre-release identifier list.
Build metadata is ignored for comparison purposes and not carried. -/
structure Version where
  major : Part
  minor : Part
  patch : Part
  preRelease : List Part
deriving DecidableEq, Repr

def Version.compare (v u : Version) : Ordering :=
  (partCompare v.major u.major).then
    ((partCompare v.minor u.minor).then
      ((partCompare v.patch u.patch).then
        (partsCompare v.preRelease u.preRelease)))

def Version.Equal (v u : Version) : Bool := v.compare u == .eq

def Version.GreaterThan (v u : Version) : Bool := v.compare u == .gt

def Version.LessThan (v u : Version) : Bool := v.compare u == .lt

def Version.GreaterThanOrEqual (v u : Version) : Bool := v.compare u != .lt

def Version.LessThanOrEqual (v u : Version) : Bool := v.compare u != .gt

/-- Modelled from the spec: a version is a pre-release when it carries a
non-empty, non-wildcard pre-release identifier list.  The synthetic
pre-release wildcard produced for the empty range token does not count as
a pre-release (spec §8: the empty range matches every non-pre-release
version). -/
def Version.IsPreRelease (v : Version) : Bool :=
  !(v.preRelease.isEmpty || v.preRelease.any Part.isAnyP)

/-- Modelled from the spec (§3 invariant): a wildcard major component
makes the whole version the universal "any" version. -/
def Version.IsAny (v : Version) : Bool := v.major.isAnyP

/-- Modelled from the spec: the release projection strips the pre-release
identifiers and keeps major/minor/patch. -/
def Version.Release (v : Version) : Version := { v with preRelease := [] }

/-- Modelled from the spec (§4.4): the exclusive upper bound of a tilde
range.  Wildcard major: infinite boundary; wildcard (or absent, which is
constructed as wildcard) minor: next major; otherwise next minor. -/
def Version.TildeBump (v : Version) : Version :=
  if v.major.isAnyP then ⟨.inf, .num 0, .num 0, []⟩
  else if v.minor.isAnyP then ⟨succPart v.major, .num 0, .num 0, []⟩
  else ⟨v.major, succPart v.minor, .num 0, []⟩

/-- Modelled from the spec (§4.4) and the source's comment table
(`^* → any`, `^1.2.3 → <2.0.0`, `^0.2.3 → <0.3.0`, `^0.0.3 → <0.0.4`,
`^0.0 → <0.1.0`, `^0 → <1.0.0`): the exclusive upper bound of a caret
range. -/
def Version.CaretBump (v : Version) : Version :=
  if v.major.isAnyP then ⟨.inf, .num 0, .num 0, []⟩
  else if !v.major.isZero then ⟨succPart v.major, .num 0, .num 0, []⟩
  else if v.minor.isAnyP then ⟨succPart v.major, .num 0, .num 0, []⟩
  else if !v.minor.isZero then ⟨v.major, succPart v.minor, .num 0, []⟩
  else if v.patch.isAnyP then ⟨v.major, succPart v.minor, .num 0, []⟩
  else ⟨v.major, v.minor, succPart v.patch, []⟩

/-! ## Evaluation configuration and operator predicates (constraint.go) -/

/-- `type conf struct { includePreRelease bool }`. -/
structure Conf where
  includePreRelease : Bool
deriving DecidableEq, Repr

/-- The zero value of `conf` (also what `Constraints{}` carries). -/
def defaultConf : Conf := ⟨false⟩

/-- `func constraintEqual(v, c Version, _ conf) bool`. -/
def constraintEqual (v c : Version) (_ : Conf) : Bool := v.Equal c

/-- `func constraintGreaterThan(v, c Version, conf conf) bool`. -/
def constraintGreaterThan (v c : Version) (cf : Conf) : Bool :=
  if !cf.includePreRelease && (c.IsPreRelease && v.IsPreRelease) then
    v.Release.Equal c.Release && v.GreaterThan c
  else v.GreaterThan c

/-- `func constraintLessThan(v, c Version, conf conf) bool`. -/
def constraintLessThan (v c : Version) (cf : Conf) : Bool :=
  if !cf.includePreRelease && (c.IsPreRelease && v.IsPreRelease) then
    v.Release.Equal c.Release && v.LessThan c
  else v.LessThan c

/-- `func constraintGreaterThanEqual(v, c Version, conf conf) bool`. -/
def constraintGreaterThanEqual (v c : Version) (cf : Conf) : Bool :=
  if !cf.includePreRelease && (c.IsPreRelease && v.IsPreRelease) then
    v.Release.Equal c.Release && v.GreaterThanOrEqual c
  else v.GreaterThanOrEqual c

/-- `func constraintLessThanEqual(v, c Version, conf conf) bool`. -/
def constraintLessThanEqual (v c : Version) (cf : Conf) : Bool :=
  if !cf.includePreRelease && (c.IsPreRelease && v.IsPreRelease) then
    v.Release.Equal c.Release && v.LessThanOrEqual c
  else v.LessThanOrEqual c

/-- `func constraintTilde(v, c Version, conf conf) bool`. -/
def constraintTilde (v c : Version) (cf : Conf) : Bool :=
  if !cf.includePreRelease && (c.IsPreRelease && v.IsPreRelease) then
    v.GreaterThanOrEqual c && v.LessThan c.Release
  else v.GreaterThanOrEqual c && v.LessThan c.TildeBump

/-- `func constraintCaret(v, c Version, conf conf) bool`. -/
def constraintCaret (v c : Version) (cf : Conf) : Bool :=
  if !cf.includePreRelease && (c.IsPreRelease && v.IsPreRelease) then
    v.GreaterThanOrEqual c && v.LessThan c.Release
  else v.GreaterThanOrEqual c && v.LessThan c.CaretBump

/-- The closed operator vocabulary of the `constraintOperators` map,
as a tagged enumeration. -/
inductive Op where
  | eq
  | gt
  | lt
  | gte
  | lte
  | tilde
  | caret
deriving DecidableEq, Repr

/-- Dispatch from an operator tag to its `operatorFunc`. -/
def opFunc : Op → Version → Version → Conf → Bool
  | .eq => constraintEqual
  | .gt => constraintGreaterThan
  | .lt => constraintLessThan
  | .gte => constraintGreaterThanEqual
  | .lte => constraintLessThanEqual
  | .tilde => constraintTilde
  | .caret => constraintCaret

/-- The `constraintOperators` map: operator spelling to operator
function, rendered as an association list.  The tokenizer below draws its
operator vocabulary from this list (mirroring the Go `init` building the
regex alternation from the map keys), ordered longest spelling first,
which is the unique order in which the randomized Go alternation can
complete a match. -/
def opsList : List (Chars × Op) :=
  [(['=', '='], .eq), (['>', '='], .gte), (['=', '>'], .gte),
   (['<', '='], .lte), (['=', '<'], .lte),
   (['='], .eq), (['>'], .gt), (['<'], .lt),
   (['~'], .tilde), (['^'], .caret), ([], .eq)]

/-- Map lookup `constraintOperators[s]`. -/
def constraintOperators (s : Chars) : Option Op :=
  (opsList.find? (fun e => e.1 = s)).map (fun e => e.2)

/-- `type constraint struct { version Version; operator operatorFunc;
original string }` (the operator is carried as its tag). -/
structure Constraint where
  version : Version
  operator : Op
  original : Chars
deriving DecidableEq, Repr

/-- `func preCheck(f operatorFunc) operatorFunc`: the pre-release gate. -/
def preCheck (f : Version → Version → Conf → Bool)
    (v c : Version) (cf : Conf) : Bool :=
  if !cf.includePreRelease && (v.IsPreRelease && !c.IsPreRelease) then false
  else if c.IsPreRelease && c.IsAny then false
  else f v c cf

/-- `func (c constraint) check(v Version, conf conf) bool`. -/
def Constraint.check (c : Constraint) (v : Version) (cf : Conf) : Bool :=
  preCheck (opFunc c.operator) v c.version cf

/-- `func (c constraint) String() string`. -/
def Constraint.StringC (c : Constraint) : Chars := c.original

/-- `type Constraints struct { constraints [][]constraint; conf conf }`. -/
structure Constraints where
  constraints : List (List Constraint)
  conf : Conf
deriving DecidableEq, Repr

/-- `func andCheck(v Version, constraints []constraint, conf conf) bool`:
a loop over the terms returning false at the first unsatisfied one. -/
def andCheck (v : Version) (cs : List Constraint) (cf : Conf) : Bool :=
  cs.all (fun c => c.check v cf)

/-- `func (cs Constraints) Check(v Version) bool`: a loop over the
alternatives returning true at the first satisfied one and false when
none is (in particular when the list is empty). -/
def Constraints.Check (cs : Constraints) (v : Version) : Bool :=
  cs.constraints.any (fun c => andCheck v c cs.conf)

/-! ## Grammar, tokenizer and validator (`cvRegex`, `constraintRegexp`,
`validConstraintRegexp`)

The Go source drives these with regular expressions.  They are embedded
here as deterministic scanners over character lists; each scanner's doc
comment names the regex fragment it renders.  Go's leftmost-first
semantics is preserved: at each position the operator alternation can be
completed by at most one vocabulary entry (a longer operator's extra
character is an operator character, which can never begin the whitespace
or version token that must follow a shorter alternative), so a fixed
longest-first order is equivalent to the randomized map order. -/

/-- Go `\s`: `[\t\n\f\r ]`. -/
def isWsChar (c : Char) : Bool :=
  c = ' ' || c = '\t' || c = '\n' || c = '\x0c' || c = '\r'

/-- The version-component character class `[0-9|x|X|\*]` of `cvRegex`.
The `|` characters inside the class are literal, so `|` itself is an
accepted component character. -/
def isCompC (c : Char) : Bool :=
  c.isDigit || c = '|' || c = 'x' || c = 'X' || c = '*'

/-- The pre-release/build identifier class `[0-9A-Za-z-]`. -/
def isIdC (c : Char) : Bool := c.isDigit || c.isAlpha || c = '-'

def skipWs (cs : Chars) : Chars := cs.dropWhile isWsChar

/-- `strings.TrimPrefix`. -/
def stripLead (pre cs : Chars) : Chars :=
  if pre.isPrefixOf cs then cs.drop pre.length else cs

/-- Greedy scan of `(?:[0-9A-Za-z-]+\.)*[0-9A-Za-z-]+` territory: the
longest prefix made of identifier characters and single separating dots,
never consuming a dot that is not followed by an identifier character. -/
def scanIdDot : Chars → Chars × Chars
  | [] => ([], [])
  | c :: t =>
    if isIdC c then ((c :: (scanIdDot t).1), (scanIdDot t).2)
    else if c = '.' then
      match t with
      | d :: _ =>
        if isIdC d then (('.' :: (scanIdDot t).1), (scanIdDot t).2)
        else ([], c :: t)
      | [] => ([], c :: t)
    else ([], c :: t)

/-- The dotted identifier group `((?:[0-9A-Za-z-]+\.)*[0-9A-Za-z-]+)`:
fails when no leading identifier character is present. -/
def parseIdents (cs : Chars) : Option (Chars × Chars) :=
  match scanIdDot cs with
  | ([], _) => none
  | (cap, r) => some (cap, r)

/-- The five capture groups of `cvRegex` (`m[3]`–`m[7]` of
`constraintRegexp`), plus whether the optional leading `v` matched.
An empty capture means the group did not participate, matching Go's
empty-string convention (a participating capture is never empty). -/
structure CvM where
  hasV : Bool
  major : Chars
  minor : Chars
  patch : Chars
  pre : Chars
  build : Chars
deriving DecidableEq, Repr

/-- The text consumed by a `cvRegex` match with captures `m`. -/
def CvM.text (m : CvM) : Chars :=
  (if m.hasV then ['v'] else []) ++ m.major
    ++ (if m.minor = [] then [] else '.' :: m.minor)
    ++ (if m.patch = [] then [] else '.' :: m.patch)
    ++ (if m.pre = [] then [] else '-' :: m.pre)
    ++ (if m.build = [] then [] else '+' :: m.build)

/-- One optional `(?:\.([0-9|x|X|\*]+))?` group: a dot followed by a
non-empty component-character run, or nothing. -/
def parseDotC (cs : Chars) : Chars × Chars :=
  match cs with
  | c :: t =>
    if c = '.' then
      if t.takeWhile isCompC = [] then ([], cs)
      else (t.takeWhile isCompC, t.dropWhile isCompC)
    else ([], cs)
  | [] => ([], cs)

/-- One optional tagged identifier group, `(?:-(idents))?` (tag `'-'`)
or `(?:\+(idents))?` (tag `'+'`). -/
def parseTagged (tag : Char) (cs : Chars) : Chars × Chars :=
  match cs with
  | c :: t =>
    if c = tag then
      match parseIdents t with
      | some (cap, r) => (cap, r)
      | none => ([], cs)
    else ([], cs)
  | [] => ([], cs)

/-- `cvRegex` after the optional `v`: a mandatory component run, up to
two further dotted component runs, an optional pre-release and an
optional build group. -/
def parseCvBody (cs : Chars) : Option (CvM × Chars) :=
  if cs.takeWhile isCompC = [] then none
  else
    some (⟨false, cs.takeWhile isCompC,
        (parseDotC (cs.dropWhile isCompC)).1,
        (parseDotC (parseDotC (cs.dropWhile isCompC)).2).1,
        (parseTagged '-' (parseDotC (parseDotC (cs.dropWhile isCompC)).2).2).1,
        (parseTagged '+'
          (parseTagged '-' (parseDotC (parseDotC (cs.dropWhile isCompC)).2).2).2).1⟩,
      (parseTagged '+'
        (parseTagged '-' (parseDotC (parseDotC (cs.dropWhile isCompC)).2).2).2).2)

/-- The whole `cvRegex` match at the start of the input.  A leading `v`
is consumed when present; since `v` is not a component character, the
regex's backtracking into the no-`v` branch can never succeed, so
consuming it unconditionally is faithful. -/
def parseCv (cs : Chars) : Option (CvM × Chars) :=
  if cs.head? = some 'v' then
    (parseCvBody cs.tail).map (fun mr => ({ mr.1 with hasV := true }, mr.2))
  else parseCvBody cs

/-- The alphabet of the operator vocabulary: every character occurring
in a key of `constraintOperators`. -/
def isOpChar (c : Char) : Bool :=
  c = '=' || c = '<' || c = '>' || c = '~' || c = '^'

/-- One `(operator)(\s*)(cvRegex)` match of `constraintRegexp`:
the operator spelling, the whitespace between operator and version, and
the version captures. -/
structure PairM where
  opS : Chars
  op : Op
  ws : Chars
  cv : CvM
deriving DecidableEq, Repr

/-- The text consumed by a `constraintRegexp` match. -/
def PairM.text (p : PairM) : Chars := p.opS ++ p.ws ++ p.cv.text

/-- Try the operator vocabulary entries in order: an entry matches when
its spelling is a prefix of the input and a version token (after optional
whitespace) follows. -/
def tryPair : List (Chars × Op) → Chars → Option (PairM × Chars)
  | [], _ => none
  | (o, k) :: rest, cs =>
    if o.isPrefixOf cs then
      match parseCv ((cs.drop o.length).dropWhile isWsChar) with
      | some (m, r) => some (⟨o, k, (cs.drop o.length).takeWhile isWsChar, m⟩, r)
      | none => tryPair rest cs
    else tryPair rest cs

/-- A `constraintRegexp` match anchored at the start of the input. -/
def parsePair (cs : Chars) : Option (PairM × Chars) := tryPair opsList cs

/-- One step of the `FindAllString` scan: emit the leftmost match and
continue after it, or slide one character on failure. -/
def findAllStep (rec : Chars → List Chars) (cs : Chars) : List Chars :=
  match parsePair cs with
  | some pr => pr.1.text :: rec pr.2
  | none =>
    match cs with
    | [] => []
    | _ :: t => rec t

/-- `constraintRegexp.FindAllString(vv, -1)` (fuelled scanner); the
wrapper below supplies sufficient fuel. -/
def findAllF : Nat → Chars → List Chars
  | 0, _ => []
  | fuel + 1, cs => findAllStep (findAllF fuel) cs

def findAllStrings (cs : Chars) : List Chars := findAllF (cs.length + 1) cs

/-- One step of the `FindStringSubmatch` scan. -/
def findFirstStep (rec : Chars → Option PairM) (cs : Chars) : Option PairM :=
  match parsePair cs with
  | some pr => some pr.1
  | none =>
    match cs with
    | [] => none
    | _ :: t => rec t

/-- `constraintRegexp.FindStringSubmatch(c)` (fuelled): the captures of
the leftmost match, or `none`. -/
def findFirstF : Nat → Chars → Option PairM
  | 0, _ => none
  | fuel + 1, cs => findFirstStep (findFirstF fuel) cs

def findFirstPair (cs : Chars) : Option PairM := findFirstF (cs.length + 1) cs

/-- `validConstraintRegexp`:
`^\s*(\s*(ops)\s*(cv)\s*\,?)*\s*$` (fuelled): leading whitespace, then
zero or more operator/version pairs each followed by optional whitespace
and an optional comma. -/
def validLoopF : Nat → Chars → Bool
  | 0, _ => false
  | fuel + 1, cs =>
    if skipWs cs = [] then true
    else
      match parsePair (skipWs cs) with
      | none => false
      | some pr =>
        if (skipWs pr.2).head? = some ',' then validLoopF fuel (skipWs pr.2).tail
        else validLoopF fuel (skipWs pr.2)

def validSegment (cs : Chars) : Bool := validLoopF (cs.length + 1) cs

/-- `strings.TrimSpace`: drop leading and trailing whitespace. -/
def trimTrailing (cs : Chars) : Chars := (cs.reverse.dropWhile isWsChar).reverse

def trimSpace (cs : Chars) : Chars := trimTrailing (skipWs cs)

/-- `strings.Split(v, "||")`: split at leftmost non-overlapping
occurrences of the OR separator. -/
def splitOnOr : Chars → List Chars
  | [] => [[]]
  | '|' :: '|' :: rest => [] :: splitOnOr rest
  | c :: rest =>
    match splitOnOr rest with
    | [] => [[c]]
    | s :: ss => (c :: s) :: ss

/-! ## Comparator-term construction and range parsing -/

/-- `part.NewPart` of the external goversion package, modelled from the
spec: an all-digit token is a concrete number, a wildcard symbol is the
wildcard marker, anything else is a string identifier. -/
def NewPart (s : Chars) : Part :=
  if s ≠ [] && s.all Char.isDigit then
    .num (s.foldl (fun acc c => acc * 10 + (c.toNat - '0'.toNat)) 0)
  else if s = ['*'] || s = ['x'] || s = ['X'] then .any
  else .str s

/-- `func newPart(p string) part.Part`: an absent component defaults to
the wildcard. -/
def newPart (p : Chars) : Part :=
  if p = [] then NewPart ['*'] else NewPart p

/-- `strings.Split(s, ".")`. -/
def splitDots : Chars → List Chars
  | [] => [[]]
  | '.' :: rest => [] :: splitDots rest
  | c :: rest =>
    match splitDots rest with
    | [] => [[c]]
    | s :: ss => (c :: s) :: ss

/-- `part.NewParts` of the external goversion package, modelled from the
spec: an empty string is the absent pre-release list, otherwise the
dot-separated identifiers. -/
def NewParts (s : Chars) : List Part :=
  if s = [] then [] else (splitDots s).map NewPart

/-- `func newConstraint(c string) (constraint, error)`.  The error case
carries the message `improper constraint: <token>`. -/
def newConstraint (c : Chars) : Except Chars Constraint :=
  if c = [] then
    .ok ⟨⟨.any, .any, .any, NewParts ['*']⟩, .eq, []⟩
  else
    match findFirstPair c with
    | none => .error (("improper constraint: ").data ++ c)
    | some p =>
      let major := p.cv.major
      let minor := stripLead ['.'] p.cv.minor
      let patch := stripLead ['.'] p.cv.patch
      let pre := NewParts (stripLead ['-'] p.cv.pre)
      .ok ⟨⟨newPart major, newPart minor, newPart patch, pre⟩, p.op, c⟩

/-- The body of the `NewConstraints` loop for one OR-segment: validate,
tokenize (substituting the trimmed segment when no token is found), and
construct every comparator term. -/
def parseSegment (vv : Chars) : Except Chars (List Constraint) :=
  if validSegment vv = false then
    .error (("improper constraint: ").data ++ vv)
  else if findAllStrings vv = [] then
    [trimSpace vv].mapM newConstraint
  else (findAllStrings vv).mapM newConstraint

/-- The `NewConstraints` loop over OR-segments, accumulating the
alternative list or stopping at the first error. -/
def ncLoop : List Chars → Except Chars (List (List Constraint))
  | [] => .ok []
  | vv :: rest =>
    match parseSegment vv with
    | .error e => .error e
    | .ok cs =>
      match ncLoop rest with
      | .error e => .error e
      | .ok css => .ok (cs :: css)

/-- `func NewConstraints(v string, opts ...ConstraintOption)
(Constraints, error)`: the options are folded into the configuration
beforehand; on error the zero `Constraints{}` value is returned together
with the message. -/
def NewConstraints (v : String) (config : Conf) : Constraints × Option Chars :=
  match ncLoop (splitOnOr v.data) with
  | .error e => (⟨[], defaultConf⟩, some e)
  | .ok css => (⟨css, config⟩, none)

/-- `strings.Join` on character lists. -/
def joinSep (sep : Chars) : List Chars → Chars
  | [] => []
  | [x] => x
  | x :: xs => x ++ sep ++ joinSep sep xs

/-- `func (cs Constraints) String() string`: comma-join the original text
of each alternative's terms, then join alternatives with `||`. -/
def Constraints.StringC (cs : Constraints) : Chars :=
  joinSep ['|', '|']
    (cs.constraints.map (fun orC => joinSep [','] (orC.map Constraint.StringC)))

end Npm

open Npm

/-- The reusable re-parsing property of a captured dotted identifier
group: re-scanning the capture followed by any text that can neither
extend an identifier nor start a new dotted group recovers exactly the
capture. -/
def identsOk (xs : Chars) : Prop :=
  xs = [] ∨ (xs ≠ [] ∧ ∀ rest, (∀ c, rest.head? = some c → isIdC c = false ∧ c ≠ '.') →
    parseIdents (xs ++ rest) = some (xs, rest))

/-- The shape invariant of the capture record of a successful `cvRegex`
match: a non-empty component-character major, component-character minor
and patch with the patch only present when the minor is, and re-parsable
pre-release and build captures. -/
def cvOk (m : CvM) : Prop :=
  m.major ≠ [] ∧ m.major.all isCompC = true ∧ m.minor.all isCompC = true ∧
  m.patch.all isCompC = true ∧ (m.minor = [] → m.patch = []) ∧
  identsOk m.pre ∧ identsOk m.build

/-! ## Small evaluation lemmas about the version model -/

theorem partCompare_any_right (p : Part) : partCompare p .any = .eq := by
  cases p <;> rfl

theorem partsCompare_anyList (a : List Part) : partsCompare a [.any] = .eq := by
  simp [partsCompare, Part.isAnyP]

theorem partsCompare_pre_nil {a : List Part} (h : a ≠ [])
    (h2 : a.any Part.isAnyP = false) : partsCompare a [] = .lt := by
  unfold partsCompare
  simp only [h2, List.any_nil, Bool.or_self, Bool.false_eq_true, if_false]
  match a with
  | x :: xs => rfl

theorem then_chain_lt_ne_eq : ∀ o1 o2 o3 : Ordering,
    (o1.then (o2.then (o3.then .lt))) ≠ .eq := by
  intro o1 o2 o3
  cases o1 <;> cases o2 <;> cases o3 <;> simp [Ordering.then]

theorem isPreRelease_spec {v : Version} (h : v.IsPreRelease = true) :
    v.preRelease ≠ [] ∧ v.preRelease.any Part.isAnyP = false := by
  unfold Version.IsPreRelease at h
  constructor
  · intro hnil
    rw [hnil] at h
    simp at h
  · cases hx : v.preRelease.any Part.isAnyP
    · rfl
    · rw [hx] at h; simp at h

/-! ## Character-class facts and list-scanning helper lemmas -/

theorem isWsChar_cases {c : Char} (h : isWsChar c = true) :
    c = ' ' ∨ c = '\t' ∨ c = '\n' ∨ c = '\x0c' ∨ c = '\r' := by
  unfold isWsChar at h
  simp only [Bool.or_eq_true, decide_eq_true_eq] at h
  tauto

theorem isOpChar_cases {c : Char} (h : isOpChar c = true) :
    c = '=' ∨ c = '<' ∨ c = '>' ∨ c = '~' ∨ c = '^' := by
  unfold isOpChar at h
  simp only [Bool.or_eq_true, decide_eq_true_eq] at h
  tauto

theorem isOpChar_not_ws {c : Char} (h : isOpChar c = true) : isWsChar c = false := by
  rcases isOpChar_cases h with h1 | h1 | h1 | h1 | h1 <;> subst h1 <;> decide

theorem isWsChar_not_comp {c : Char} (h : isWsChar c = true) : isCompC c = false := by
  rcases isWsChar_cases h with h1 | h1 | h1 | h1 | h1 <;> subst h1 <;> decide

theorem isWsChar_ne_v {c : Char} (h : isWsChar c = true) : c ≠ 'v' := by
  rcases isWsChar_cases h with h1 | h1 | h1 | h1 | h1 <;> subst h1 <;> decide

theorem isOpChar_not_comp {c : Char} (h : isOpChar c = true) : isCompC c = false := by
  rcases isOpChar_cases h with h1 | h1 | h1 | h1 | h1 <;> subst h1 <;> decide

theorem isOpChar_ne_v {c : Char} (h : isOpChar c = true) : c ≠ 'v' := by
  rcases isOpChar_cases h with h1 | h1 | h1 | h1 | h1 <;> subst h1 <;> decide

theorem isCompC_not_ws {c : Char} (h : isCompC c = true) : isWsChar c = false := by
  cases hw : isWsChar c
  · rfl
  · rw [isWsChar_not_comp hw] at h
    exact absurd h (by simp)

theorem isCompC_ne_v {c : Char} (h : isCompC c = true) : c ≠ 'v' := by
  intro hc
  subst hc
  exact absurd h (by decide)

theorem headNot_takeWhile_nil {p : Char → Bool} {ys : Chars}
    (h : ∀ c, ys.head? = some c → p c = false) : ys.takeWhile p = [] := by
  cases ys with
  | nil => rfl
  | cons y t => simp [List.takeWhile_cons, h y rfl]

theorem headNot_dropWhile_self {p : Char → Bool} {ys : Chars}
    (h : ∀ c, ys.head? = some c → p c = false) : ys.dropWhile p = ys := by
  cases ys with
  | nil => rfl
  | cons y t => simp [List.dropWhile_cons, h y rfl]

theorem takeWhile_append_allP {p : Char → Bool} {xs : Chars} (ys : Chars)
    (h : xs.all p = true) : (xs ++ ys).takeWhile p = xs ++ ys.takeWhile p := by
  induction xs with
  | nil => rfl
  | cons x t ih =>
    simp only [List.all_cons, Bool.and_eq_true] at h
    simp [List.takeWhile_cons, h.1, ih h.2]

theorem dropWhile_append_allP {p : Char → Bool} {xs : Chars} (ys : Chars)
    (h : xs.all p = true) : (xs ++ ys).dropWhile p = ys.dropWhile p := by
  induction xs with
  | nil => rfl
  | cons x t ih =>
    simp only [List.all_cons, Bool.and_eq_true] at h
    simp [List.dropWhile_cons, h.1, ih h.2]

theorem span_append_allP {p : Char → Bool} {xs ys : Chars}
    (h1 : xs.all p = true) (h2 : ∀ c, ys.head? = some c → p c = false) :
    (xs ++ ys).span p = (xs, ys) := by
  simp [List.span_eq_take_drop, takeWhile_append_allP ys h1, dropWhile_append_allP ys h1,
    headNot_takeWhile_nil h2, headNot_dropWhile_self h2]

theorem takeWhile_all {p : Char → Bool} : ∀ cs : Chars, (cs.takeWhile p).all p = true := by
  intro cs
  induction cs with
  | nil => rfl
  | cons c t ih =>
    rw [List.takeWhile_cons]
    cases hp : p c
    · rfl
    · simp [hp, ih]

theorem dropWhile_head_not {p : Char → Bool} :
    ∀ (cs : Chars) (c : Char), (cs.dropWhile p).head? = some c → p c = false := by
  intro cs
  induction cs with
  | nil => intro c h; cases h
  | cons x t ih =>
    intro c h
    rw [List.dropWhile_cons] at h
    by_cases hp : p x
    · simp only [hp, if_true] at h
      exact ih c h
    · simp only [hp, if_false] at h
      cases h
      simpa using hp

theorem span_sound {p : Char → Bool} {cs a r : Chars} (h : cs.span p = (a, r)) :
    a.all p = true ∧ a ++ r = cs ∧ ∀ c, r.head? = some c → p c = false := by
  rw [List.span_eq_take_drop] at h
  cases h
  exact ⟨takeWhile_all cs, List.takeWhile_append_dropWhile p cs, dropWhile_head_not cs⟩

theorem takeWhile_append_one {p : Char → Bool} {c : Char} (cs : Chars)
    (hc : p c = false) : (cs ++ [c]).takeWhile p = cs.takeWhile p := by
  induction cs with
  | nil => simp [List.takeWhile_cons, hc]
  | cons x t ih =>
    rw [List.cons_append, List.takeWhile_cons, List.takeWhile_cons]
    cases hp : p x
    · rfl
    · rw [ih]

theorem dropWhile_append_one {p : Char → Bool} {c : Char} (cs : Chars)
    (hc : p c = false) : (cs ++ [c]).dropWhile p = cs.dropWhile p ++ [c] := by
  induction cs with
  | nil => simp [List.dropWhile_cons, hc]
  | cons x t ih =>
    rw [List.cons_append, List.dropWhile_cons, List.dropWhile_cons]
    cases hp : p x
    · simp
    · simpa using ih

theorem span_append_one {p : Char → Bool} {c : Char} (cs : Chars)
    (hc : p c = false) :
    (cs ++ [c]).span p = ((cs.span p).1, (cs.span p).2 ++ [c]) := by
  simp [List.span_eq_take_drop, takeWhile_append_one cs hc, dropWhile_append_one cs hc]

/-! ## Lemmas about the identifier scanner -/

theorem scanIdDot_cons_id {c : Char} (t : Chars) (h : isIdC c = true) :
    scanIdDot (c :: t) = (c :: (scanIdDot t).1, (scanIdDot t).2) := by
  simp only [scanIdDot]
  simp [h]

theorem scanIdDot_cons_other {c : Char} (t : Chars) (h1 : isIdC c = false)
    (h2 : c ≠ '.') : scanIdDot (c :: t) = ([], c :: t) := by
  simp only [scanIdDot]
  simp [h1, h2]

theorem scanIdDot_dot_id {d : Char} (t2 : Chars) (h3 : isIdC d = true) :
    scanIdDot ('.' :: d :: t2) =
      ('.' :: (scanIdDot (d :: t2)).1, (scanIdDot (d :: t2)).2) := by
  simp only [scanIdDot]
  have : isIdC '.' = false := by decide
  simp [h3, this]

theorem scanIdDot_dot_other {d : Char} (t2 : Chars) (h3 : isIdC d = false) :
    scanIdDot ('.' :: d :: t2) = ([], '.' :: d :: t2) := by
  simp only [scanIdDot]
  have : isIdC '.' = false := by decide
  simp [h3, this]

theorem scanIdDot_dot_nil : scanIdDot ['.'] = ([], ['.']) := rfl

theorem scanIdDot_stop {cs : Chars}
    (hr : ∀ c, cs.head? = some c → isIdC c = false ∧ c ≠ '.') :
    scanIdDot cs = ([], cs) := by
  cases cs with
  | nil => rfl
  | cons r0 t =>
    have := hr r0 rfl
    exact scanIdDot_cons_other t this.1 this.2

theorem scanIdDot_consumed : ∀ cs : Chars, (scanIdDot cs).1 ++ (scanIdDot cs).2 = cs := by
  intro cs
  induction cs with
  | nil => rfl
  | cons c t ih =>
    cases h1 : isIdC c with
    | true =>
      rw [scanIdDot_cons_id t h1]
      dsimp only
      rw [List.cons_append, ih]
    | false =>
      by_cases h2 : c = '.'
      · subst h2
        cases t with
        | nil => rfl
        | cons d t2 =>
          cases h3 : isIdC d with
          | true =>
            rw [scanIdDot_dot_id t2 h3]
            dsimp only
            rw [List.cons_append, ih]
          | false =>
            rw [scanIdDot_dot_other t2 h3]
            rfl
      · rw [scanIdDot_cons_other t h1 h2]
        rfl

theorem scanIdDot_comma {c0 : Char} (h1 : isIdC c0 = false) (h2 : c0 ≠ '.') :
    ∀ cs : Chars, scanIdDot (cs ++ [c0]) = ((scanIdDot cs).1, (scanIdDot cs).2 ++ [c0]) := by
  intro cs
  induction cs with
  | nil =>
    simp only [List.nil_append]
    rw [scanIdDot_cons_other [] h1 h2]
    rfl
  | cons c t ih =>
    rw [List.cons_append]
    cases hc : isIdC c with
    | true =>
      rw [scanIdDot_cons_id (t ++ [c0]) hc, scanIdDot_cons_id t hc]
      dsimp only
      rw [ih]
    | false =>
      by_cases hd : c = '.'
      · subst hd
        cases t with
        | nil =>
          simp only [List.nil_append]
          rw [scanIdDot_dot_other [] h1, scanIdDot_dot_nil]
          rfl
        | cons d t2 =>
          cases h3 : isIdC d with
          | true =>
            rw [List.cons_append]
            rw [scanIdDot_dot_id (t2 ++ [c0]) h3, scanIdDot_dot_id t2 h3]
            dsimp only
            rw [List.cons_append] at ih
            rw [ih]
          | false =>
            rw [List.cons_append]
            rw [scanIdDot_dot_other (t2 ++ [c0]) h3, scanIdDot_dot_other t2 h3]
            rfl
      · rw [scanIdDot_cons_other (t ++ [c0]) hc hd, scanIdDot_cons_other t hc hd]
        rfl

theorem scanIdDot_reparse :
    ∀ (cs rest : Chars),
      (∀ c, rest.head? = some c → isIdC c = false ∧ c ≠ '.') →
      scanIdDot ((scanIdDot cs).1 ++ rest) = ((scanIdDot cs).1, rest) := by
  intro cs
  induction cs with
  | nil =>
    intro rest hr
    exact scanIdDot_stop hr
  | cons c t ih =>
    intro rest hr
    cases h1 : isIdC c with
    | true =>
      rw [scanIdDot_cons_id t h1]
      dsimp only
      rw [List.cons_append, scanIdDot_cons_id _ h1, ih rest hr]
    | false =>
      by_cases h2 : c = '.'
      · subst h2
        cases t with
        | nil =>
          rw [scanIdDot_dot_nil]
          exact scanIdDot_stop hr
        | cons d t2 =>
          cases h3 : isIdC d with
          | true =>
            have hih := ih rest hr
            rw [scanIdDot_cons_id t2 h3] at hih
            dsimp only at hih
            rw [List.cons_append, scanIdDot_cons_id _ h3] at hih
            simp only [Prod.mk.injEq, List.cons.injEq, true_and] at hih
            rw [scanIdDot_dot_id t2 h3, scanIdDot_cons_id t2 h3]
            dsimp only
            rw [List.cons_append, List.cons_append, scanIdDot_dot_id _ h3,
              scanIdDot_cons_id _ h3]
            dsimp only
            rw [hih.1, hih.2]
          | false =>
            rw [scanIdDot_dot_other t2 h3]
            exact scanIdDot_stop hr
      · rw [scanIdDot_cons_other t h1 h2]
        exact scanIdDot_stop hr

theorem parseIdents_sound {cs cap r : Chars} (h : parseIdents cs = some (cap, r)) :
    cap ≠ [] ∧ cap ++ r = cs ∧ scanIdDot cs = (cap, r) := by
  unfold parseIdents at h
  rcases hs : scanIdDot cs with ⟨a, r2⟩
  rw [hs] at h
  cases a with
  | nil => simp at h
  | cons x xs =>
    simp only [Option.some.injEq, Prod.mk.injEq] at h
    obtain ⟨h1, h2⟩ := h
    subst h1
    subst h2
    refine ⟨by simp, ?_, rfl⟩
    have := scanIdDot_consumed cs
    rw [hs] at this
    exact this

theorem parseIdents_reparse {cs cap r : Chars} (h : parseIdents cs = some (cap, r))
    (rest : Chars) (hr : ∀ c, rest.head? = some c → isIdC c = false ∧ c ≠ '.') :
    parseIdents (cap ++ rest) = some (cap, rest) := by
  obtain ⟨hne, _, hs⟩ := parseIdents_sound h
  have := scanIdDot_reparse cs rest hr
  rw [hs] at this
  unfold parseIdents
  rw [this]
  cases cap with
  | nil => exact absurd rfl hne
  | cons x xs => rfl

theorem parseIdents_comma {c0 : Char} (h1 : isIdC c0 = false) (h2 : c0 ≠ '.')
    (cs : Chars) :
    parseIdents (cs ++ [c0]) = (parseIdents cs).map (fun pr => (pr.1, pr.2 ++ [c0])) := by
  unfold parseIdents
  rw [scanIdDot_comma h1 h2 cs]
  rcases hs : scanIdDot cs with ⟨a, r2⟩
  cases a with
  | nil => rfl
  | cons x xs => rfl

/-! ## Lemmas about the optional dotted-component and tagged groups -/

theorem parseDotC_stop {cs : Chars} (h : ∀ c, cs.head? = some c → c ≠ '.') :
    parseDotC cs = ([], cs) := by
  cases cs with
  | nil => rfl
  | cons c t =>
    simp only [parseDotC]
    simp [h c rfl]

theorem parseDotC_prepend {a rest : Chars} (ha : a ≠ []) (hall : a.all isCompC = true)
    (hr : ∀ c, rest.head? = some c → isCompC c = false) :
    parseDotC ('.' :: (a ++ rest)) = (a, rest) := by
  simp only [parseDotC]
  rw [takeWhile_append_allP rest hall, headNot_takeWhile_nil hr,
    dropWhile_append_allP rest hall, headNot_dropWhile_self hr]
  simp [ha]

theorem parseDotC_sound (cs : Chars) :
    ((parseDotC cs).1 = [] ∧ (parseDotC cs).2 = cs) ∨
    ((parseDotC cs).1 ≠ [] ∧ (parseDotC cs).1.all isCompC = true ∧
      '.' :: ((parseDotC cs).1 ++ (parseDotC cs).2) = cs ∧
      (∀ c, (parseDotC cs).2.head? = some c → isCompC c = false)) := by
  cases cs with
  | nil => left; exact ⟨rfl, rfl⟩
  | cons c t =>
    by_cases hc : c = '.'
    · subst hc
      cases htk : t.takeWhile isCompC with
      | nil =>
        left
        simp only [parseDotC, htk]
        simp
      | cons x xs =>
        right
        have hres : parseDotC ('.' :: t) = (x :: xs, t.dropWhile isCompC) := by
          simp only [parseDotC, htk]
          simp
        rw [hres]
        refine ⟨by simp, ?_, ?_, ?_⟩
        · rw [← htk]; exact takeWhile_all t
        · rw [← htk, List.takeWhile_append_dropWhile]
        · exact dropWhile_head_not t
    · left
      rw [parseDotC_stop (fun c2 hc2 => by cases hc2; exact hc)]
      exact ⟨rfl, rfl⟩

theorem parseDotC_comma {c0 : Char} (h1 : isCompC c0 = false) (h2 : c0 ≠ '.')
    (cs : Chars) :
    parseDotC (cs ++ [c0]) = ((parseDotC cs).1, (parseDotC cs).2 ++ [c0]) := by
  cases cs with
  | nil =>
    simp only [List.nil_append]
    rw [parseDotC_stop (fun c2 hc2 => by cases hc2; exact h2)]
    rfl
  | cons c t =>
    by_cases hc : c = '.'
    · subst hc
      rw [List.cons_append]
      simp only [parseDotC]
      rw [takeWhile_append_one t h1, dropWhile_append_one t h1]
      cases htk : t.takeWhile isCompC with
      | nil => simp
      | cons x xs => simp
    · rw [List.cons_append]
      rw [parseDotC_stop (fun c2 hc2 => by cases hc2; exact hc),
        parseDotC_stop (fun c2 hc2 => by cases hc2; exact hc)]
      rfl

theorem parseTagged_stop {tag : Char} {cs : Chars}
    (h : ∀ c, cs.head? = some c → c ≠ tag) : parseTagged tag cs = ([], cs) := by
  cases cs with
  | nil => rfl
  | cons c t =>
    simp only [parseTagged]
    simp [h c rfl]

theorem parseTagged_prepend {tag : Char} {a rest : Chars}
    (hre : ∀ rest2, (∀ c, rest2.head? = some c → isIdC c = false ∧ c ≠ '.') →
      parseIdents (a ++ rest2) = some (a, rest2))
    (hr : ∀ c, rest.head? = some c → isIdC c = false ∧ c ≠ '.') :
    parseTagged tag (tag :: (a ++ rest)) = (a, rest) := by
  simp only [parseTagged]
  rw [hre rest hr]
  simp

theorem parseTagged_sound (tag : Char) (cs : Chars) :
    ((parseTagged tag cs).1 = [] ∧ (parseTagged tag cs).2 = cs) ∨
    ((parseTagged tag cs).1 ≠ [] ∧
      tag :: ((parseTagged tag cs).1 ++ (parseTagged tag cs).2) = cs ∧
      ∀ rest, (∀ c, rest.head? = some c → isIdC c = false ∧ c ≠ '.') →
        parseIdents ((parseTagged tag cs).1 ++ rest) =
          some ((parseTagged tag cs).1, rest)) := by
  cases cs with
  | nil => left; exact ⟨rfl, rfl⟩
  | cons c t =>
    by_cases hc : c = tag
    · subst hc
      cases hpi : parseIdents t with
      | none =>
        left
        simp only [parseTagged, hpi]
        simp
      | some pr =>
        rcases pr with ⟨cap, r⟩
        right
        have hres : parseTagged c (c :: t) = (cap, r) := by
          simp only [parseTagged, hpi]
          simp
        rw [hres]
        obtain ⟨hne, hcons, _⟩ := parseIdents_sound hpi
        exact ⟨hne, by rw [hcons], fun rest hrest => parseIdents_reparse hpi rest hrest⟩
    · left
      rw [parseTagged_stop (fun c2 hc2 => by cases hc2; exact hc)]
      exact ⟨rfl, rfl⟩

theorem parseTagged_comma {tag c0 : Char} (h0 : c0 ≠ tag) (h1 : isIdC c0 = false)
    (h2 : c0 ≠ '.') (cs : Chars) :
    parseTagged tag (cs ++ [c0]) = ((parseTagged tag cs).1, (parseTagged tag cs).2 ++ [c0]) := by
  cases cs with
  | nil =>
    simp only [List.nil_append]
    rw [parseTagged_stop (fun c2 hc2 => by cases hc2; exact h0)]
    rfl
  | cons c t =>
    by_cases hc : c = tag
    · subst hc
      rw [List.cons_append]
      simp only [parseTagged]
      rw [parseIdents_comma h1 h2 t]
      cases hpi : parseIdents t with
      | none => simp
      | some pr => rcases pr with ⟨cap, r⟩; simp
    · rw [List.cons_append]
      rw [parseTagged_stop (fun c2 hc2 => by cases hc2; exact hc),
        parseTagged_stop (fun c2 hc2 => by cases hc2; exact hc)]
      rfl

/-! ## Lemmas about the whole version-token scanner -/

theorem head_append_cases {P : Char → Prop} {a b : Chars}
    (ha : ∀ c, a.head? = some c → P c) (hb : ∀ c, b.head? = some c → P c) :
    ∀ c, (a ++ b).head? = some c → P c := by
  cases a with
  | nil => simpa using hb
  | cons x t =>
    intro c hc
    cases hc
    exact ha x rfl

theorem chunk_head (tag : Char) (xs : Chars) :
    ∀ c, (if xs = [] then [] else tag :: xs).head? = some c → c = tag := by
  intro c hc
  by_cases hx : xs = []
  · rw [if_pos hx] at hc
    exact absurd hc (by simp)
  · rw [if_neg hx] at hc
    simp only [List.head?_cons, Option.some.injEq] at hc
    exact hc.symm

theorem dotChunk (x : Chars) :
    (if (parseDotC x).1 = [] then [] else '.' :: (parseDotC x).1) ++ (parseDotC x).2 = x := by
  rcases parseDotC_sound x with ⟨h1, h2⟩ | ⟨h1, _, h3, _⟩
  · rw [if_pos h1, List.nil_append, h2]
  · rw [if_neg h1]
    exact h3

theorem tagChunk (tag : Char) (x : Chars) :
    (if (parseTagged tag x).1 = [] then [] else tag :: (parseTagged tag x).1) ++
      (parseTagged tag x).2 = x := by
  rcases parseTagged_sound tag x with ⟨h1, h2⟩ | ⟨h1, h3, _⟩
  · rw [if_pos h1, List.nil_append, h2]
  · rw [if_neg h1]
    exact h3

theorem parseCvBody_sound {cs : Chars} {m : CvM} {r : Chars}
    (h : parseCvBody cs = some (m, r)) :
    m.hasV = false ∧ cvOk m ∧ m.text ++ r = cs := by
  by_cases htk : cs.takeWhile isCompC = []
  · unfold parseCvBody at h
    rw [if_pos htk] at h
    exact absurd h (by simp)
  · unfold parseCvBody at h
    rw [if_neg htk] at h
    simp only [Option.some.injEq, Prod.mk.injEq] at h
    obtain ⟨hm, hr⟩ := h
    subst hm
    subst hr
    refine ⟨rfl, ⟨htk, takeWhile_all cs, ?_, ?_, ?_, ?_, ?_⟩, ?_⟩
    · rcases parseDotC_sound (cs.dropWhile isCompC) with ⟨h1, _⟩ | ⟨_, h2, _, _⟩
      · simp [h1]
      · exact h2
    · rcases parseDotC_sound (parseDotC (cs.dropWhile isCompC)).2 with ⟨h1, _⟩ | ⟨_, h2, _, _⟩
      · simp [h1]
      · exact h2
    · intro hmi
      rcases parseDotC_sound (cs.dropWhile isCompC) with ⟨h1, h2⟩ | ⟨h1, _, _, _⟩
      · show (parseDotC (parseDotC (cs.dropWhile isCompC)).2).1 = []
        rw [h2]
        exact hmi
      · exact absurd hmi h1
    · rcases parseTagged_sound '-' (parseDotC (parseDotC (cs.dropWhile isCompC)).2).2 with
        ⟨h1, _⟩ | ⟨h1, _, h3⟩
      · exact Or.inl h1
      · exact Or.inr ⟨h1, h3⟩
    · rcases parseTagged_sound '+'
          (parseTagged '-' (parseDotC (parseDotC (cs.dropWhile isCompC)).2).2).2 with
        ⟨h1, _⟩ | ⟨h1, _, h3⟩
      · exact Or.inl h1
      · exact Or.inr ⟨h1, h3⟩
    · show CvM.text _ ++ _ = cs
      unfold CvM.text
      dsimp only
      simp only [Bool.false_eq_true, if_false, List.nil_append, List.append_assoc]
      rw [tagChunk '+', tagChunk '-', dotChunk, dotChunk,
        List.takeWhile_append_dropWhile]

theorem dotStage {xs rest : Chars} (hall : xs.all isCompC = true)
    (hr1 : ∀ c, rest.head? = some c → isCompC c = false)
    (hr2 : xs = [] → ∀ c, rest.head? = some c → c ≠ '.') :
    parseDotC ((if xs = [] then [] else '.' :: xs) ++ rest) = (xs, rest) := by
  by_cases hx : xs = []
  · rw [if_pos hx, List.nil_append, parseDotC_stop (hr2 hx), hx]
  · rw [if_neg hx]
    exact parseDotC_prepend hx hall hr1

theorem tagStage {tag : Char} {xs rest : Chars} (hx : identsOk xs)
    (hr1 : ∀ c, rest.head? = some c → isIdC c = false ∧ c ≠ '.')
    (hr2 : xs = [] → ∀ c, rest.head? = some c → c ≠ tag) :
    parseTagged tag ((if xs = [] then [] else tag :: xs) ++ rest) = (xs, rest) := by
  rcases hx with hx | ⟨hne, hre⟩
  · rw [if_pos hx, List.nil_append, parseTagged_stop (hr2 hx), hx]
  · rw [if_neg hne]
    exact parseTagged_prepend hre hr1

theorem parseCvBody_reparse {m : CvM} (hv : m.hasV = false) (hok : cvOk m) :
    parseCvBody m.text = some (m, []) := by
  obtain ⟨hvf, maj, mi, pa, pr, bu⟩ := m
  dsimp only at hv
  subst hv
  obtain ⟨hmaj_ne, hmaj_all, hmi_all, hpa_all, hmip, hpre, hbu⟩ := hok
  dsimp only at hmaj_ne hmaj_all hmi_all hpa_all hmip hpre hbu
  have htext : CvM.text ⟨false, maj, mi, pa, pr, bu⟩ =
      maj ++ ((if mi = [] then [] else '.' :: mi) ++ ((if pa = [] then [] else '.' :: pa) ++
        ((if pr = [] then [] else '-' :: pr) ++ (if bu = [] then [] else '+' :: bu)))) := by
    unfold CvM.text
    dsimp only
    simp [List.append_assoc]
  have hbc1 : ∀ c, (if bu = [] then [] else '+' :: bu).head? = some c →
      isIdC c = false ∧ c ≠ '.' := by
    intro c hc
    rw [chunk_head '+' bu c hc]
    exact ⟨by decide, by decide⟩
  have hplus : parseTagged '+' (if bu = [] then [] else '+' :: bu) = (bu, []) := by
    have := @tagStage '+' bu [] hbu
      (by intro c hc; cases hc) (by intro h2 c hc; cases hc)
    rwa [List.append_nil] at this
  have hdash : parseTagged '-' ((if pr = [] then [] else '-' :: pr) ++
      (if bu = [] then [] else '+' :: bu)) = (pr, (if bu = [] then [] else '+' :: bu)) := by
    refine tagStage hpre hbc1 ?_
    intro _ c hc
    rw [chunk_head '+' bu c hc]
    decide
  have hprcbc_nc : ∀ c, ((if pr = [] then [] else '-' :: pr) ++
      (if bu = [] then [] else '+' :: bu)).head? = some c → isCompC c = false := by
    refine head_append_cases ?_ ?_ <;> intro c hc
    · rw [chunk_head '-' pr c hc]; decide
    · rw [chunk_head '+' bu c hc]; decide
  have hprcbc_nd : ∀ c, ((if pr = [] then [] else '-' :: pr) ++
      (if bu = [] then [] else '+' :: bu)).head? = some c → c ≠ '.' := by
    refine head_append_cases ?_ ?_ <;> intro c hc
    · rw [chunk_head '-' pr c hc]; decide
    · rw [chunk_head '+' bu c hc]; decide
  have hpatch : parseDotC ((if pa = [] then [] else '.' :: pa) ++
      ((if pr = [] then [] else '-' :: pr) ++ (if bu = [] then [] else '+' :: bu))) =
      (pa, (if pr = [] then [] else '-' :: pr) ++ (if bu = [] then [] else '+' :: bu)) :=
    dotStage hpa_all hprcbc_nc (fun _ => hprcbc_nd)
  have hpcR_nc : ∀ c, ((if pa = [] then [] else '.' :: pa) ++
      ((if pr = [] then [] else '-' :: pr) ++ (if bu = [] then [] else '+' :: bu))).head? =
        some c → isCompC c = false := by
    refine head_append_cases ?_ hprcbc_nc
    intro c hc
    rw [chunk_head '.' pa c hc]
    decide
  have hminor : parseDotC ((if mi = [] then [] else '.' :: mi) ++
      ((if pa = [] then [] else '.' :: pa) ++
        ((if pr = [] then [] else '-' :: pr) ++ (if bu = [] then [] else '+' :: bu)))) =
      (mi, (if pa = [] then [] else '.' :: pa) ++
        ((if pr = [] then [] else '-' :: pr) ++ (if bu = [] then [] else '+' :: bu))) := by
    refine dotStage hmi_all hpcR_nc ?_
    intro hmi0 c hc
    rw [hmip hmi0, if_pos rfl, List.nil_append] at hc
    exact hprcbc_nd c hc
  have hR_nc : ∀ c, ((if mi = [] then [] else '.' :: mi) ++
      ((if pa = [] then [] else '.' :: pa) ++
        ((if pr = [] then [] else '-' :: pr) ++ (if bu = [] then [] else '+' :: bu)))).head? =
        some c → isCompC c = false := by
    refine head_append_cases ?_ hpcR_nc
    intro c hc
    rw [chunk_head '.' mi c hc]
    decide
  rw [htext]
  unfold parseCvBody
  rw [takeWhile_append_allP _ hmaj_all, headNot_takeWhile_nil hR_nc, List.append_nil,
    dropWhile_append_allP _ hmaj_all, headNot_dropWhile_self hR_nc, if_neg hmaj_ne,
    hminor]
  dsimp only
  rw [hpatch]
  dsimp only
  rw [hdash]
  dsimp only
  rw [hplus]

theorem parseCvBody_comma {c0 : Char} (hcomp : isCompC c0 = false)
    (hid : isIdC c0 = false) (hdot : c0 ≠ '.') (hdash : c0 ≠ '-') (hplus : c0 ≠ '+')
    (cs : Chars) :
    parseCvBody (cs ++ [c0]) = (parseCvBody cs).map (fun mr => (mr.1, mr.2 ++ [c0])) := by
  unfold parseCvBody
  rw [takeWhile_append_one cs hcomp]
  by_cases htk : cs.takeWhile isCompC = []
  · rw [if_pos htk, if_pos htk]
    rfl
  · rw [if_neg htk, if_neg htk, dropWhile_append_one cs hcomp,
      parseDotC_comma hcomp hdot]
    dsimp only
    rw [parseDotC_comma hcomp hdot]
    dsimp only
    rw [parseTagged_comma hdash hid hdot]
    dsimp only
    rw [parseTagged_comma hplus hid hdot]
    rfl

theorem text_setV {m0 : CvM} (h : m0.hasV = false) :
    CvM.text { m0 with hasV := true } = 'v' :: CvM.text m0 := by
  obtain ⟨hv0, maj, mi, pa, pr, bu⟩ := m0
  dsimp only at h
  subst h
  rfl

theorem setV_eta {m : CvM} (h : m.hasV = true) :
    { { m with hasV := false } with hasV := true } = m := by
  obtain ⟨hv0, maj, mi, pa, pr, bu⟩ := m
  dsimp only at h
  subst h
  rfl

theorem cv_text_head {m : CvM} (hok : cvOk m) :
    ∃ c t, m.text = c :: t ∧ (m.hasV = true → c = 'v') ∧
      (m.hasV = false → isCompC c = true) := by
  obtain ⟨hvf, maj, mi, pa, pr, bu⟩ := m
  obtain ⟨hne, hall, _⟩ := hok
  dsimp only at hne hall
  cases hvf
  · cases maj with
    | nil => exact absurd rfl hne
    | cons a t2 =>
      simp only [List.all_cons, Bool.and_eq_true] at hall
      refine ⟨a, _, rfl, ?_, ?_⟩
      · intro h
        exact absurd h (by simp)
      · intro _
        exact hall.1
  · refine ⟨'v', _, rfl, ?_, ?_⟩
    · intro _
      rfl
    · intro h
      exact absurd h (by simp)

theorem parseCv_sound {cs : Chars} {m : CvM} {r : Chars}
    (h : parseCv cs = some (m, r)) : cvOk m ∧ m.text ++ r = cs := by
  unfold parseCv at h
  by_cases hv : cs.head? = some 'v'
  · rw [if_pos hv] at h
    cases hb : parseCvBody cs.tail with
    | none =>
      rw [hb] at h
      exact absurd h (by simp)
    | some mr =>
      rcases mr with ⟨m0, r0⟩
      rw [hb] at h
      simp only [Option.map_some', Option.some.injEq, Prod.mk.injEq] at h
      obtain ⟨hm, hr⟩ := h
      subst hm
      subst hr
      obtain ⟨hv0, hok0, htxt0⟩ := parseCvBody_sound hb
      refine ⟨hok0, ?_⟩
      rw [text_setV hv0, List.cons_append, htxt0]
      cases cs with
      | nil => exact absurd hv (by simp)
      | cons c t =>
        simp only [List.head?_cons, Option.some.injEq] at hv
        subst hv
        rfl
  · rw [if_neg hv] at h
    obtain ⟨_, hok, htxt⟩ := parseCvBody_sound h
    exact ⟨hok, htxt⟩

theorem parseCv_reparse {m : CvM} (hok : cvOk m) : parseCv m.text = some (m, []) := by
  cases hvc : m.hasV
  · have hbody := parseCvBody_reparse hvc hok
    obtain ⟨c, t, htext, _, hcomp⟩ := cv_text_head hok
    unfold parseCv
    rw [if_neg ?hne]
    · exact hbody
    case hne =>
      rw [htext]
      simp only [List.head?_cons, Option.some.injEq]
      intro hcv
      subst hcv
      exact absurd (hcomp hvc) (by decide)
  · have hok0 : cvOk { m with hasV := false } := hok
    have hbody := parseCvBody_reparse (m := { m with hasV := false }) rfl hok0
    have htext : CvM.text m = 'v' :: CvM.text { m with hasV := false } := by
      conv_lhs => rw [← setV_eta hvc]
      rw [text_setV rfl]
    rw [htext]
    unfold parseCv
    rw [if_pos (show ('v' :: CvM.text { m with hasV := false }).head? = some 'v' from rfl)]
    show (parseCvBody (CvM.text { m with hasV := false })).map _ = _
    rw [hbody]
    simp only [Option.map_some']
    rw [setV_eta hvc]

theorem parseCv_comma {c0 : Char} (hv0 : c0 ≠ 'v') (hcomp : isCompC c0 = false)
    (hid : isIdC c0 = false) (hdot : c0 ≠ '.') (hdash : c0 ≠ '-') (hplus : c0 ≠ '+')
    (cs : Chars) :
    parseCv (cs ++ [c0]) = (parseCv cs).map (fun mr => (mr.1, mr.2 ++ [c0])) := by
  unfold parseCv
  cases cs with
  | nil =>
    simp only [List.nil_append]
    rw [if_neg (by simp [hv0]), if_neg (by simp)]
    have htk : [c0].takeWhile isCompC = [] := by
      refine headNot_takeWhile_nil ?_
      intro c hc
      cases hc
      exact hcomp
    unfold parseCvBody
    rw [if_pos htk]
    rfl
  | cons c t =>
    rw [List.cons_append]
    by_cases hv : ((c :: t : Chars).head? = some 'v')
    · have hv2 : ((c :: (t ++ [c0]) : Chars).head? = some 'v') := hv
      rw [if_pos hv, if_pos hv2]
      show (parseCvBody (t ++ [c0])).map
          (fun mr => ({ mr.1 with hasV := true }, mr.2)) =
        ((parseCvBody t).map (fun mr => ({ mr.1 with hasV := true }, mr.2))).map
          (fun mr => (mr.1, mr.2 ++ [c0]))
      rw [parseCvBody_comma hcomp hid hdot hdash hplus t]
      generalize parseCvBody t = ob
      cases ob with
      | none => rfl
      | some mr => rfl
    · have hv2 : ¬ ((c :: (t ++ [c0]) : Chars).head? = some 'v') := hv
      rw [if_neg hv, if_neg hv2]
      exact parseCvBody_comma hcomp hid hdot hdash hplus (c :: t)

/-! ## Lemmas about the operator/version pair matcher -/

theorem isPrefixOf_append_self : ∀ (l r : Chars), l.isPrefixOf (l ++ r) = true := by
  intro l r
  induction l with
  | nil => simp [List.isPrefixOf]
  | cons c t ih => simp [List.isPrefixOf, ih]

theorem opPrefix_false {e : Char} (es : Chars) {ws : Chars} {c : Char} (t2 : Chars)
    (he : isOpChar e = true) (hws : ws.all isWsChar = true)
    (hc : c = 'v' ∨ isCompC c = true) :
    (e :: es).isPrefixOf (ws ++ (c :: t2)) = false := by
  cases ws with
  | nil =>
    simp only [List.nil_append, List.isPrefixOf, Bool.and_eq_false_iff]
    left
    have hne : e ≠ c := by
      rcases hc with hc | hc
      · subst hc
        exact isOpChar_ne_v he
      · intro hec
        subst hec
        rw [isOpChar_not_comp he] at hc
        exact absurd hc (by simp)
    simp [hne]
  | cons w ws2 =>
    simp only [List.all_cons, Bool.and_eq_true] at hws
    simp only [List.cons_append, List.isPrefixOf, Bool.and_eq_false_iff]
    left
    have hne : e ≠ w := by
      intro hew
      subst hew
      rw [isOpChar_not_ws he] at hws
      exact absurd hws.1 (by simp)
    simp [hne]

theorem pair_text_split (p : PairM) : p.text = p.opS ++ (p.ws ++ p.cv.text) := by
  rw [PairM.text, List.append_assoc]

theorem tryPair_hit : ∀ (before after : List (Chars × Op)) (p : PairM),
    p.ws.all isWsChar = true → cvOk p.cv →
    (∀ e ∈ before, e.1.isPrefixOf p.text = false) →
    tryPair (before ++ (p.opS, p.op) :: after) p.text = some (p, []) := by
  intro before
  induction before with
  | nil =>
    intro after p hws hok hb
    obtain ⟨c, t2, htx, hvx, hcx⟩ := cv_text_head hok
    have hhead : isWsChar c = false := by
      cases hv2 : p.cv.hasV
      · exact isCompC_not_ws (hcx hv2)
      · rw [hvx hv2]
        decide
    have hcc : c = 'v' ∨ isCompC c = true := by
      cases hv2 : p.cv.hasV
      · exact Or.inr (hcx hv2)
      · exact Or.inl (hvx hv2)
    rw [List.nil_append]
    show tryPair ((p.opS, p.op) :: after) p.text = some (p, [])
    rw [tryPair]
    rw [if_pos ?hpre]
    case hpre =>
      rw [pair_text_split]
      exact isPrefixOf_append_self p.opS (p.ws ++ p.cv.text)
    rw [pair_text_split, List.drop_left]
    have hdw : (p.ws ++ p.cv.text).dropWhile isWsChar = p.cv.text := by
      rw [dropWhile_append_allP _ hws]
      refine headNot_dropWhile_self ?_
      intro c2 hc2
      rw [htx] at hc2
      cases hc2
      exact hhead
    have htw : (p.ws ++ p.cv.text).takeWhile isWsChar = p.ws := by
      rw [takeWhile_append_allP _ hws]
      have : p.cv.text.takeWhile isWsChar = [] := by
        refine headNot_takeWhile_nil ?_
        intro c2 hc2
        rw [htx] at hc2
        cases hc2
        exact hhead
      rw [this, List.append_nil]
    rw [hdw, parseCv_reparse hok, htw]
  | cons e bs ih =>
    intro after p hws hok hb
    rcases e with ⟨eo, ek⟩
    rw [List.cons_append, tryPair]
    rw [if_neg ?hneg]
    case hneg =>
      rw [hb (eo, ek) (List.mem_cons_self _ _)]
      simp
    exact ih after p hws hok (fun e2 he2 => hb e2 (List.mem_cons_of_mem _ he2))

theorem tryPair_sound : ∀ (l : List (Chars × Op)) {cs : Chars} {p : PairM} {r : Chars},
    tryPair l cs = some (p, r) →
    (p.opS, p.op) ∈ l ∧ p.ws.all isWsChar = true ∧ cvOk p.cv ∧
      p.text ++ r = cs ∧ p.text ≠ [] := by
  intro l
  induction l with
  | nil =>
    intro cs p r h
    exact absurd h (by simp [tryPair])
  | cons e rest ih =>
    intro cs p r h
    rcases e with ⟨o, k⟩
    rw [tryPair] at h
    by_cases hpre : o.isPrefixOf cs = true
    · rw [if_pos hpre] at h
      cases hcv : parseCv ((cs.drop o.length).dropWhile isWsChar) with
      | none =>
        rw [hcv] at h
        obtain ⟨hmem, h2⟩ := ih h
        exact ⟨List.mem_cons_of_mem _ hmem, h2⟩
      | some mr =>
        rcases mr with ⟨mcv, r0⟩
        rw [hcv] at h
        simp only [Option.some.injEq, Prod.mk.injEq] at h
        obtain ⟨hp, hr⟩ := h
        subst hp
        subst hr
        obtain ⟨hok, htxt⟩ := parseCv_sound hcv
        have hsplit : ∃ t, o ++ t = cs := by
          have := (List.isPrefixOf_iff_prefix).mp hpre
          exact this
        obtain ⟨t, ht⟩ := hsplit
        have hdrop : cs.drop o.length = t := by
          rw [← ht, List.drop_left]
        refine ⟨List.mem_cons_self _ _, takeWhile_all _, hok, ?_, ?_⟩
        · show o ++ (cs.drop o.length).takeWhile isWsChar ++ mcv.text ++ r0 = cs
          rw [hdrop] at htxt ⊢
          rw [List.append_assoc (o ++ t.takeWhile isWsChar), htxt,
            List.append_assoc, List.takeWhile_append_dropWhile]
          exact ht
        · obtain ⟨c, t2, htx, _, _⟩ := cv_text_head hok
          show o ++ (cs.drop o.length).takeWhile isWsChar ++ mcv.text ≠ []
          rw [htx]
          simp
    · rw [if_neg hpre] at h
      obtain ⟨hmem, h2⟩ := ih h
      exact ⟨List.mem_cons_of_mem _ hmem, h2⟩

theorem parsePair_sound {cs : Chars} {p : PairM} {r : Chars}
    (h : parsePair cs = some (p, r)) :
    (p.opS, p.op) ∈ opsList ∧ p.ws.all isWsChar = true ∧ cvOk p.cv ∧
      p.text ++ r = cs ∧ p.text ≠ [] :=
  tryPair_sound opsList h

theorem parsePair_length {cs : Chars} {p : PairM} {r : Chars}
    (h : parsePair cs = some (p, r)) : r.length < cs.length := by
  obtain ⟨_, _, _, htxt, hne⟩ := parsePair_sound h
  rw [← htxt, List.length_append]
  have : 0 < p.text.length := List.length_pos.mpr hne
  omega

theorem prefix1_head {a c : Char} (h : a ≠ c) (X : Chars) :
    [a].isPrefixOf (c :: X) = false := by
  simp [List.isPrefixOf, h]

theorem prefix2_head {a b c : Char} (h : a ≠ c) (X : Chars) :
    [a, b].isPrefixOf (c :: X) = false := by
  simp [List.isPrefixOf, h]

theorem prefix2_step (a b : Char) (X : Chars) :
    [a, b].isPrefixOf (a :: X) = [b].isPrefixOf X := by
  simp [List.isPrefixOf]

theorem parsePair_reparse {cs : Chars} {p : PairM} {r : Chars}
    (h : parsePair cs = some (p, r)) : parsePair p.text = some (p, []) := by
  obtain ⟨hmem, hws, hok, _, _⟩ := parsePair_sound h
  obtain ⟨c, t2, htx, hvx, hcx⟩ := cv_text_head hok
  have hcc : c = 'v' ∨ isCompC c = true := by
    cases hv2 : p.cv.hasV
    · exact Or.inr (hcx hv2)
    · exact Or.inl (hvx hv2)
  have hop : ∀ (a : Char) (es : Chars), isOpChar a = true →
      (a :: es).isPrefixOf (p.ws ++ p.cv.text) = false := by
    intro a es ha
    rw [htx]
    exact opPrefix_false es t2 ha hws hcc
  have hsplit := pair_text_split p
  simp only [opsList, List.mem_cons, List.not_mem_nil, or_false] at hmem
  show parsePair p.text = some (p, [])
  unfold parsePair
  rcases hmem with hm|hm|hm|hm|hm|hm|hm|hm|hm|hm|hm <;> rw [Prod.mk.injEq] at hm <;>
    obtain ⟨ho, hk⟩ := hm
  · have H := tryPair_hit [] [(['>','='], Op.gte), (['=','>'], Op.gte), (['<','='], Op.lte), (['=','<'], Op.lte), (['='], Op.eq), (['>'], Op.gt), (['<'], Op.lt), (['~'], Op.tilde), (['^'], Op.caret), ([], Op.eq)] p hws hok
      (by intro e2 he2; exact absurd he2 (List.not_mem_nil e2))
    rw [ho, hk] at H
    exact H
  · have hb : ∀ e2 ∈ [(['=','='], Op.eq)],
        e2.1.isPrefixOf p.text = false := by
      intro e2 he2
      simp only [List.mem_cons, List.not_mem_nil, or_false] at he2
      rcases he2 with rfl
      · rw [hsplit, ho]
        show ['=','='].isPrefixOf ('>' :: '=' :: (p.ws ++ p.cv.text)) = false
        exact prefix2_head (by decide) _
    have H := tryPair_hit [(['=','='], Op.eq)] [(['=','>'], Op.gte), (['<','='], Op.lte), (['=','<'], Op.lte), (['='], Op.eq), (['>'], Op.gt), (['<'], Op.lt), (['~'], Op.tilde), (['^'], Op.caret), ([], Op.eq)] p hws hok hb
    rw [ho, hk] at H
    exact H
  · have hb : ∀ e2 ∈ [(['=','='], Op.eq), (['>','='], Op.gte)],
        e2.1.isPrefixOf p.text = false := by
      intro e2 he2
      simp only [List.mem_cons, List.not_mem_nil, or_false] at he2
      rcases he2 with rfl|rfl
      · rw [hsplit, ho]
        show ['=','='].isPrefixOf ('=' :: '>' :: (p.ws ++ p.cv.text)) = false
        rw [prefix2_step]
        exact prefix1_head (by decide) _
      · rw [hsplit, ho]
        show ['>','='].isPrefixOf ('=' :: '>' :: (p.ws ++ p.cv.text)) = false
        exact prefix2_head (by decide) _
    have H := tryPair_hit [(['=','='], Op.eq), (['>','='], Op.gte)] [(['<','='], Op.lte), (['=','<'], Op.lte), (['='], Op.eq), (['>'], Op.gt), (['<'], Op.lt), (['~'], Op.tilde), (['^'], Op.caret), ([], Op.eq)] p hws hok hb
    rw [ho, hk] at H
    exact H
  · have hb : ∀ e2 ∈ [(['=','='], Op.eq), (['>','='], Op.gte), (['=','>'], Op.gte)],
        e2.1.isPrefixOf p.text = false := by
      intro e2 he2
      simp only [List.mem_cons, List.not_mem_nil, or_false] at he2
      rcases he2 with rfl|rfl|rfl
      · rw [hsplit, ho]
        show ['=','='].isPrefixOf ('<' :: '=' :: (p.ws ++ p.cv.text)) = false
        exact prefix2_head (by decide) _
      · rw [hsplit, ho]
        show ['>','='].isPrefixOf ('<' :: '=' :: (p.ws ++ p.cv.text)) = false
        exact prefix2_head (by decide) _
      · rw [hsplit, ho]
        show ['=','>'].isPrefixOf ('<' :: '=' :: (p.ws ++ p.cv.text)) = false
        exact prefix2_head (by decide) _
    have H := tryPair_hit [(['=','='], Op.eq), (['>','='], Op.gte), (['=','>'], Op.gte)] [(['=','<'], Op.lte), (['='], Op.eq), (['>'], Op.gt), (['<'], Op.lt), (['~'], Op.tilde), (['^'], Op.caret), ([], Op.eq)] p hws hok hb
    rw [ho, hk] at H
    exact H
  · have hb : ∀ e2 ∈ [(['=','='], Op.eq), (['>','='], Op.gte), (['=','>'], Op.gte), (['<','='], Op.lte)],
        e2.1.isPrefixOf p.text = false := by
      intro e2 he2
      simp only [List.mem_cons, List.not_mem_nil, or_false] at he2
      rcases he2 with rfl|rfl|rfl|rfl
      · rw [hsplit, ho]
        show ['=','='].isPrefixOf ('=' :: '<' :: (p.ws ++ p.cv.text)) = false
        rw [prefix2_step]
        exact prefix1_head (by decide) _
      · rw [hsplit, ho]
        show ['>','='].isPrefixOf ('=' :: '<' :: (p.ws ++ p.cv.text)) = false
        exact prefix2_head (by decide) _
      · rw [hsplit, ho]
        show ['=','>'].isPrefixOf ('=' :: '<' :: (p.ws ++ p.cv.text)) = false
        rw [prefix2_step]
        exact prefix1_head (by decide) _
      · rw [hsplit, ho]
        show ['<','='].isPrefixOf ('=' :: '<' :: (p.ws ++ p.cv.text)) = false
        exact prefix2_head (by decide) _
    have H := tryPair_hit [(['=','='], Op.eq), (['>','='], Op.gte), (['=','>'], Op.gte), (['<','='], Op.lte)] [(['='], Op.eq), (['>'], Op.gt), (['<'], Op.lt), (['~'], Op.tilde), (['^'], Op.caret), ([], Op.eq)] p hws hok hb
    rw [ho, hk] at H
    exact H
  · have hb : ∀ e2 ∈ [(['=','='], Op.eq), (['>','='], Op.gte), (['=','>'], Op.gte), (['<','='], Op.lte), (['=','<'], Op.lte)],
        e2.1.isPrefixOf p.text = false := by
      intro e2 he2
      simp only [List.mem_cons, List.not_mem_nil, or_false] at he2
      rcases he2 with rfl|rfl|rfl|rfl|rfl
      · rw [hsplit, ho]
        show ['=','='].isPrefixOf ('=' :: (p.ws ++ p.cv.text)) = false
        rw [prefix2_step]
        exact hop '=' [] (by decide)
      · rw [hsplit, ho]
        show ['>','='].isPrefixOf ('=' :: (p.ws ++ p.cv.text)) = false
        exact prefix2_head (by decide) _
      · rw [hsplit, ho]
        show ['=','>'].isPrefixOf ('=' :: (p.ws ++ p.cv.text)) = false
        rw [prefix2_step]
        exact hop '>' [] (by decide)
      · rw [hsplit, ho]
        show ['<','='].isPrefixOf ('=' :: (p.ws ++ p.cv.text)) = false
        exact prefix2_head (by decide) _
      · rw [hsplit, ho]
        show ['=','<'].isPrefixOf ('=' :: (p.ws ++ p.cv.text)) = false
        rw [prefix2_step]
        exact hop '<' [] (by decide)
    have H := tryPair_hit [(['=','='], Op.eq), (['>','='], Op.gte), (['=','>'], Op.gte), (['<','='], Op.lte), (['=','<'], Op.lte)] [(['>'], Op.gt), (['<'], Op.lt), (['~'], Op.tilde), (['^'], Op.caret), ([], Op.eq)] p hws hok hb
    rw [ho, hk] at H
    exact H
  · have hb : ∀ e2 ∈ [(['=','='], Op.eq), (['>','='], Op.gte), (['=','>'], Op.gte), (['<','='], Op.lte), (['=','<'], Op.lte), (['='], Op.eq)],
        e2.1.isPrefixOf p.text = false := by
      intro e2 he2
      simp only [List.mem_cons, List.not_mem_nil, or_false] at he2
      rcases he2 with rfl|rfl|rfl|rfl|rfl|rfl
      · rw [hsplit, ho]
        show ['=','='].isPrefixOf ('>' :: (p.ws ++ p.cv.text)) = false
        exact prefix2_head (by decide) _
      · rw [hsplit, ho]
        show ['>','='].isPrefixOf ('>' :: (p.ws ++ p.cv.text)) = false
        rw [prefix2_step]
        exact hop '=' [] (by decide)
      · rw [hsplit, ho]
        show ['=','>'].isPrefixOf ('>' :: (p.ws ++ p.cv.text)) = false
        exact prefix2_head (by decide) _
      · rw [hsplit, ho]
        show ['<','='].isPrefixOf ('>' :: (p.ws ++ p.cv.text)) = false
        exact prefix2_head (by decide) _
      · rw [hsplit, ho]
        show ['=','<'].isPrefixOf ('>' :: (p.ws ++ p.cv.text)) = false
        exact prefix2_head (by decide) _
      · rw [hsplit, ho]
        show ['='].isPrefixOf ('>' :: (p.ws ++ p.cv.text)) = false
        exact prefix1_head (by decide) _
    have H := tryPair_hit [(['=','='], Op.eq), (['>','='], Op.gte), (['=','>'], Op.gte), (['<','='], Op.lte), (['=','<'], Op.lte), (['='], Op.eq)] [(['<'], Op.lt), (['~'], Op.tilde), (['^'], Op.caret), ([], Op.eq)] p hws hok hb
    rw [ho, hk] at H
    exact H
  · have hb : ∀ e2 ∈ [(['=','='], Op.eq), (['>','='], Op.gte), (['=','>'], Op.gte), (['<','='], Op.lte), (['=','<'], Op.lte), (['='], Op.eq), (['>'], Op.gt)],
        e2.1.isPrefixOf p.text = false := by
      intro e2 he2
      simp only [List.mem_cons, List.not_mem_nil, or_false] at he2
      rcases he2 with rfl|rfl|rfl|rfl|rfl|rfl|rfl
      · rw [hsplit, ho]
        show ['=','='].isPrefixOf ('<' :: (p.ws ++ p.cv.text)) = false
        exact prefix2_head (by decide) _
      · rw [hsplit, ho]
        show ['>','='].isPrefixOf ('<' :: (p.ws ++ p.cv.text)) = false
        exact prefix2_head (by decide) _
      · rw [hsplit, ho]
        show ['=','>'].isPrefixOf ('<' :: (p.ws ++ p.cv.text)) = false
        exact prefix2_head (by decide) _
      · rw [hsplit, ho]
        show ['<','='].isPrefixOf ('<' :: (p.ws ++ p.cv.text)) = false
        rw [prefix2_step]
        exact hop '=' [] (by decide)
      · rw [hsplit, ho]
        show ['=','<'].isPrefixOf ('<' :: (p.ws ++ p.cv.text)) = false
        exact prefix2_head (by decide) _
      · rw [hsplit, ho]
        show ['='].isPrefixOf ('<' :: (p.ws ++ p.cv.text)) = false
        exact prefix1_head (by decide) _
      · rw [hsplit, ho]
        show ['>'].isPrefixOf ('<' :: (p.ws ++ p.cv.text)) = false
        exact prefix1_head (by decide) _
    have H := tryPair_hit [(['=','='], Op.eq), (['>','='], Op.gte), (['=','>'], Op.gte), (['<','='], Op.lte), (['=','<'], Op.lte), (['='], Op.eq), (['>'], Op.gt)] [(['~'], Op.tilde), (['^'], Op.caret), ([], Op.eq)] p hws hok hb
    rw [ho, hk] at H
    exact H
  · have hb : ∀ e2 ∈ [(['=','='], Op.eq), (['>','='], Op.gte), (['=','>'], Op.gte), (['<','='], Op.lte), (['=','<'], Op.lte), (['='], Op.eq), (['>'], Op.gt), (['<'], Op.lt)],
        e2.1.isPrefixOf p.text = false := by
      intro e2 he2
      simp only [List.mem_cons, List.not_mem_nil, or_false] at he2
      rcases he2 with rfl|rfl|rfl|rfl|rfl|rfl|rfl|rfl
      · rw [hsplit, ho]
        show ['=','='].isPrefixOf ('~' :: (p.ws ++ p.cv.text)) = false
        exact prefix2_head (by decide) _
      · rw [hsplit, ho]
        show ['>','='].isPrefixOf ('~' :: (p.ws ++ p.cv.text)) = false
        exact prefix2_head (by decide) _
      · rw [hsplit, ho]
        show ['=','>'].isPrefixOf ('~' :: (p.ws ++ p.cv.text)) = false
        exact prefix2_head (by decide) _
      · rw [hsplit, ho]
        show ['<','='].isPrefixOf ('~' :: (p.ws ++ p.cv.text)) = false
        exact prefix2_head (by decide) _
      · rw [hsplit, ho]
        show ['=','<'].isPrefixOf ('~' :: (p.ws ++ p.cv.text)) = false
        exact prefix2_head (by decide) _
      · rw [hsplit, ho]
        show ['='].isPrefixOf ('~' :: (p.ws ++ p.cv.text)) = false
        exact prefix1_head (by decide) _
      · rw [hsplit, ho]
        show ['>'].isPrefixOf ('~' :: (p.ws ++ p.cv.text)) = false
        exact prefix1_head (by decide) _
      · rw [hsplit, ho]
        show ['<'].isPrefixOf ('~' :: (p.ws ++ p.cv.text)) = false
        exact prefix1_head (by decide) _
    have H := tryPair_hit [(['=','='], Op.eq), (['>','='], Op.gte), (['=','>'], Op.gte), (['<','='], Op.lte), (['=','<'], Op.lte), (['='], Op.eq), (['>'], Op.gt), (['<'], Op.lt)] [(['^'], Op.caret), ([], Op.eq)] p hws hok hb
    rw [ho, hk] at H
    exact H
  · have hb : ∀ e2 ∈ [(['=','='], Op.eq), (['>','='], Op.gte), (['=','>'], Op.gte), (['<','='], Op.lte), (['=','<'], Op.lte), (['='], Op.eq), (['>'], Op.gt), (['<'], Op.lt), (['~'], Op.tilde)],
        e2.1.isPrefixOf p.text = false := by
      intro e2 he2
      simp only [List.mem_cons, List.not_mem_nil, or_false] at he2
      rcases he2 with rfl|rfl|rfl|rfl|rfl|rfl|rfl|rfl|rfl
      · rw [hsplit, ho]
        show ['=','='].isPrefixOf ('^' :: (p.ws ++ p.cv.text)) = false
        exact prefix2_head (by decide) _
      · rw [hsplit, ho]
        show ['>','='].isPrefixOf ('^' :: (p.ws ++ p.cv.text)) = false
        exact prefix2_head (by decide) _
      · rw [hsplit, ho]
        show ['=','>'].isPrefixOf ('^' :: (p.ws ++ p.cv.text)) = false
        exact prefix2_head (by decide) _
      · rw [hsplit, ho]
        show ['<','='].isPrefixOf ('^' :: (p.ws ++ p.cv.text)) = false
        exact prefix2_head (by decide) _
      · rw [hsplit, ho]
        show ['=','<'].isPrefixOf ('^' :: (p.ws ++ p.cv.text)) = false
        exact prefix2_head (by decide) _
      · rw [hsplit, ho]
        show ['='].isPrefixOf ('^' :: (p.ws ++ p.cv.text)) = false
        exact prefix1_head (by decide) _
      · rw [hsplit, ho]
        show ['>'].isPrefixOf ('^' :: (p.ws ++ p.cv.text)) = false
        exact prefix1_head (by decide) _
      · rw [hsplit, ho]
        show ['<'].isPrefixOf ('^' :: (p.ws ++ p.cv.text)) = false
        exact prefix1_head (by decide) _
      · rw [hsplit, ho]
        show ['~'].isPrefixOf ('^' :: (p.ws ++ p.cv.text)) = false
        exact prefix1_head (by decide) _
    have H := tryPair_hit [(['=','='], Op.eq), (['>','='], Op.gte), (['=','>'], Op.gte), (['<','='], Op.lte), (['=','<'], Op.lte), (['='], Op.eq), (['>'], Op.gt), (['<'], Op.lt), (['~'], Op.tilde)] [([], Op.eq)] p hws hok hb
    rw [ho, hk] at H
    exact H
  · have hb : ∀ e2 ∈ [(['=','='], Op.eq), (['>','='], Op.gte), (['=','>'], Op.gte), (['<','='], Op.lte), (['=','<'], Op.lte), (['='], Op.eq), (['>'], Op.gt), (['<'], Op.lt), (['~'], Op.tilde), (['^'], Op.caret)],
        e2.1.isPrefixOf p.text = false := by
      intro e2 he2
      simp only [List.mem_cons, List.not_mem_nil, or_false] at he2
      rcases he2 with rfl|rfl|rfl|rfl|rfl|rfl|rfl|rfl|rfl|rfl
      · rw [hsplit, ho]
        show ('=' :: ['=']).isPrefixOf ([] ++ (p.ws ++ p.cv.text)) = false
        exact hop '=' ['='] (by decide)
      · rw [hsplit, ho]
        show ('>' :: ['=']).isPrefixOf ([] ++ (p.ws ++ p.cv.text)) = false
        exact hop '>' ['='] (by decide)
      · rw [hsplit, ho]
        show ('=' :: ['>']).isPrefixOf ([] ++ (p.ws ++ p.cv.text)) = false
        exact hop '=' ['>'] (by decide)
      · rw [hsplit, ho]
        show ('<' :: ['=']).isPrefixOf ([] ++ (p.ws ++ p.cv.text)) = false
        exact hop '<' ['='] (by decide)
      · rw [hsplit, ho]
        show ('=' :: ['<']).isPrefixOf ([] ++ (p.ws ++ p.cv.text)) = false
        exact hop '=' ['<'] (by decide)
      · rw [hsplit, ho]
        show ('=' :: []).isPrefixOf ([] ++ (p.ws ++ p.cv.text)) = false
        exact hop '=' [] (by decide)
      · rw [hsplit, ho]
        show ('>' :: []).isPrefixOf ([] ++ (p.ws ++ p.cv.text)) = false
        exact hop '>' [] (by decide)
      · rw [hsplit, ho]
        show ('<' :: []).isPrefixOf ([] ++ (p.ws ++ p.cv.text)) = false
        exact hop '<' [] (by decide)
      · rw [hsplit, ho]
        show ('~' :: []).isPrefixOf ([] ++ (p.ws ++ p.cv.text)) = false
        exact hop '~' [] (by decide)
      · rw [hsplit, ho]
        show ('^' :: []).isPrefixOf ([] ++ (p.ws ++ p.cv.text)) = false
        exact hop '^' [] (by decide)
    have H := tryPair_hit [(['=','='], Op.eq), (['>','='], Op.gte), (['=','>'], Op.gte), (['<','='], Op.lte), (['=','<'], Op.lte), (['='], Op.eq), (['>'], Op.gt), (['<'], Op.lt), (['~'], Op.tilde), (['^'], Op.caret)] [] p hws hok hb
    rw [ho, hk] at H
    exact H

theorem isPrefixOf_append_one {o cs : Chars} {c0 : Char} (h : c0 ∉ o) :
    o.isPrefixOf (cs ++ [c0]) = o.isPrefixOf cs := by
  induction o generalizing cs with
  | nil => simp [List.isPrefixOf]
  | cons a o2 ih =>
    cases cs with
    | nil =>
      have hne : a ≠ c0 := fun he => h (he ▸ List.mem_cons_self a o2)
      simp only [List.nil_append]
      simp [List.isPrefixOf, hne]
    | cons b cs2 =>
      simp only [List.cons_append, List.isPrefixOf]
      rw [show cs2.append [c0] = cs2 ++ [c0] from rfl,
        ih (fun hm => h (List.mem_cons_of_mem a hm))]

theorem drop_append_le {cs : Chars} {n : Nat} (h : n ≤ cs.length) (ys : Chars) :
    (cs ++ ys).drop n = cs.drop n ++ ys := by
  induction cs generalizing n with
  | nil =>
    cases n with
    | zero => simp
    | succ k => simp at h
  | cons a t ih =>
    cases n with
    | zero => simp
    | succ k =>
      simp only [List.cons_append, List.drop_succ_cons]
      exact ih (Nat.le_of_succ_le_succ h)

theorem tryPair_comma : ∀ (l : List (Chars × Op)) (cs : Chars),
    (∀ e ∈ l, ',' ∉ e.1) →
    tryPair l (cs ++ [',']) = (tryPair l cs).map (fun pr => (pr.1, pr.2 ++ [','])) := by
  intro l
  induction l with
  | nil => intro cs h; rfl
  | cons e rest ih =>
    intro cs h
    rcases e with ⟨o, k⟩
    rw [tryPair, tryPair, isPrefixOf_append_one (h (o, k) (List.mem_cons_self _ _))]
    by_cases hpre : o.isPrefixOf cs = true
    · rw [if_pos hpre, if_pos hpre]
      have hlen : o.length ≤ cs.length := by
        obtain ⟨t, ht⟩ := (List.isPrefixOf_iff_prefix).mp hpre
        rw [← ht]
        simp
      rw [drop_append_le hlen, takeWhile_append_one _ (by decide : isWsChar ',' = false),
        dropWhile_append_one _ (by decide : isWsChar ',' = false),
        parseCv_comma (by decide) (by decide) (by decide) (by decide) (by decide) (by decide)]
      cases parseCv ((cs.drop o.length).dropWhile isWsChar) with
      | none =>
        show tryPair rest (cs ++ [',']) = _
        exact ih cs (fun e2 he2 => h e2 (List.mem_cons_of_mem _ he2))
      | some mr => rfl
    · rw [if_neg hpre, if_neg hpre]
      exact ih cs (fun e2 he2 => h e2 (List.mem_cons_of_mem _ he2))

theorem parsePair_comma (cs : Chars) :
    parsePair (cs ++ [',']) = (parsePair cs).map (fun pr => (pr.1, pr.2 ++ [','])) :=
  tryPair_comma opsList cs (by decide)

/-! ## Fuel-irrelevance and unfolding equations for the fuelled scanners -/

theorem skipWs_length (cs : Chars) : (skipWs cs).length ≤ cs.length := by
  unfold skipWs
  induction cs with
  | nil => simp
  | cons c t ih =>
    rw [List.dropWhile_cons]
    by_cases hc : isWsChar c = true
    · simp only [hc, if_true]
      exact Nat.le_succ_of_le ih
    · simp only [hc, if_false]
      simp

theorem findAllF_irrel : ∀ (n f g : Nat) (cs : Chars), cs.length ≤ n →
    cs.length < f → cs.length < g → findAllF f cs = findAllF g cs := by
  intro n
  induction n with
  | zero =>
    intro f g cs hn hf hg
    cases cs with
    | nil =>
      cases f with
      | zero => omega
      | succ f2 =>
        cases g with
        | zero => omega
        | succ g2 => rfl
    | cons c t => simp at hn
  | succ n2 ih =>
    intro f g cs hn hf hg
    cases f with
    | zero => omega
    | succ f2 =>
      cases g with
      | zero => omega
      | succ g2 =>
        rw [findAllF, findAllF]
        unfold findAllStep
        cases hp : parsePair cs with
        | some pr =>
          dsimp only
          have hlen := parsePair_length (p := pr.1) (r := pr.2) (by rw [hp])
          rw [ih f2 g2 pr.2 (by omega) (by omega) (by omega)]
        | none =>
          cases cs with
          | nil => rfl
          | cons c t =>
            dsimp only
            simp only [List.length_cons] at hn hf hg
            rw [ih f2 g2 t (by omega) (by omega) (by omega)]

theorem findAllStrings_eq (cs : Chars) :
    findAllStrings cs = findAllStep findAllStrings cs := by
  rw [findAllStrings, findAllF]
  unfold findAllStep
  cases hp : parsePair cs with
  | some pr =>
    dsimp only
    have hlen := parsePair_length (p := pr.1) (r := pr.2) (by rw [hp])
    show pr.1.text :: findAllF cs.length pr.2 = pr.1.text :: findAllStrings pr.2
    rw [findAllStrings, findAllF_irrel pr.2.length cs.length (pr.2.length + 1) pr.2
      (Nat.le_refl _) hlen (Nat.lt_succ_self _)]
  | none =>
    cases cs with
    | nil => rfl
    | cons c t =>
      show findAllF (t.length + 1) t = findAllStrings t
      rfl

theorem findFirstF_irrel : ∀ (n f g : Nat) (cs : Chars), cs.length ≤ n →
    cs.length < f → cs.length < g → findFirstF f cs = findFirstF g cs := by
  intro n
  induction n with
  | zero =>
    intro f g cs hn hf hg
    cases cs with
    | nil =>
      cases f with
      | zero => omega
      | succ f2 =>
        cases g with
        | zero => omega
        | succ g2 => rfl
    | cons c t => simp at hn
  | succ n2 ih =>
    intro f g cs hn hf hg
    cases f with
    | zero => omega
    | succ f2 =>
      cases g with
      | zero => omega
      | succ g2 =>
        rw [findFirstF, findFirstF]
        unfold findFirstStep
        cases hp : parsePair cs with
        | some pr => rfl
        | none =>
          cases cs with
          | nil => rfl
          | cons c t =>
            dsimp only
            simp only [List.length_cons] at hn hf hg
            rw [ih f2 g2 t (by omega) (by omega) (by omega)]

theorem findFirstPair_eq (cs : Chars) :
    findFirstPair cs = findFirstStep findFirstPair cs := by
  rw [findFirstPair, findFirstF]
  unfold findFirstStep
  cases hp : parsePair cs with
  | some pr => rfl
  | none =>
    cases cs with
    | nil => rfl
    | cons c t =>
      show findFirstF (t.length + 1) t = findFirstPair t
      rfl

theorem validLoopF_irrel : ∀ (n f g : Nat) (cs : Chars), cs.length ≤ n →
    cs.length < f → cs.length < g → validLoopF f cs = validLoopF g cs := by
  intro n
  induction n with
  | zero =>
    intro f g cs hn hf hg
    cases cs with
    | nil =>
      cases f with
      | zero => omega
      | succ f2 =>
        cases g with
        | zero => omega
        | succ g2 => rfl
    | cons c t => simp at hn
  | succ n2 ih =>
    intro f g cs hn hf hg
    cases f with
    | zero => omega
    | succ f2 =>
      cases g with
      | zero => omega
      | succ g2 =>
        rw [validLoopF, validLoopF]
        by_cases hws : skipWs cs = []
        · rw [if_pos hws, if_pos hws]
        · rw [if_neg hws, if_neg hws]
          have hle : (skipWs cs).length ≤ cs.length := skipWs_length cs
          cases hp : parsePair (skipWs cs) with
          | none => rfl
          | some pr =>
            dsimp only
            have hlen : pr.2.length < (skipWs cs).length :=
              parsePair_length (p := pr.1) (r := pr.2) (by rw [hp])
            have hrle : (skipWs pr.2).length ≤ pr.2.length := skipWs_length pr.2
            by_cases hd : (skipWs pr.2).head? = some ','
            · rw [if_pos hd, if_pos hd]
              have htl : (skipWs pr.2).tail.length = (skipWs pr.2).length - 1 :=
                List.length_tail _
              exact ih f2 g2 (skipWs pr.2).tail (by omega) (by omega) (by omega)
            · rw [if_neg hd, if_neg hd]
              exact ih f2 g2 (skipWs pr.2) (by omega) (by omega) (by omega)

theorem validSegment_eq (cs : Chars) :
    validSegment cs =
      (if skipWs cs = [] then true
      else
        match parsePair (skipWs cs) with
        | none => false
        | some pr =>
          if (skipWs pr.2).head? = some ',' then validSegment (skipWs pr.2).tail
          else validSegment (skipWs pr.2)) := by
  rw [validSegment, validLoopF]
  by_cases hws : skipWs cs = []
  · rw [if_pos hws, if_pos hws]
  · rw [if_neg hws, if_neg hws]
    have hle : (skipWs cs).length ≤ cs.length := skipWs_length cs
    cases hp : parsePair (skipWs cs) with
    | none => rfl
    | some pr =>
      dsimp only
      have hlen : pr.2.length < (skipWs cs).length :=
        parsePair_length (p := pr.1) (r := pr.2) (by rw [hp])
      have hrle : (skipWs pr.2).length ≤ pr.2.length := skipWs_length pr.2
      by_cases hd : (skipWs pr.2).head? = some ','
      · rw [if_pos hd, if_pos hd, validSegment]
        have htl : (skipWs pr.2).tail.length = (skipWs pr.2).length - 1 :=
          List.length_tail _
        exact validLoopF_irrel (skipWs pr.2).tail.length cs.length
          ((skipWs pr.2).tail.length + 1) (skipWs pr.2).tail (Nat.le_refl _)
          (by omega) (by omega)
      · rw [if_neg hd, if_neg hd, validSegment]
        exact validLoopF_irrel (skipWs pr.2).length cs.length
          ((skipWs pr.2).length + 1) (skipWs pr.2) (Nat.le_refl _)
          (by omega) (by omega)

/-! ## Tokens of the scanner re-parse successfully -/

theorem findAllStrings_mem : ∀ (n : Nat) (cs : Chars), cs.length ≤ n →
    ∀ t ∈ findAllStrings cs, ∃ p : PairM, t = p.text ∧ parsePair t = some (p, []) := by
  intro n
  induction n with
  | zero =>
    intro cs hn t ht
    cases cs with
    | nil =>
      have hz : findAllStrings ([] : Chars) = [] := rfl
      rw [hz] at ht
      exact absurd ht (by simp)
    | cons c t2 => simp at hn
  | succ n2 ih =>
    intro cs hn t ht
    rw [findAllStrings_eq] at ht
    unfold findAllStep at ht
    cases hp : parsePair cs with
    | some pr =>
      rw [hp] at ht
      simp only [List.mem_cons] at ht
      rcases ht with ht | ht
      · subst ht
        exact ⟨pr.1, rfl, parsePair_reparse (p := pr.1) (r := pr.2) (by rw [hp])⟩
      · have hlen := parsePair_length (p := pr.1) (r := pr.2) (by rw [hp])
        exact ih pr.2 (by omega) t ht
    | none =>
      rw [hp] at ht
      cases cs with
      | nil => exact absurd ht (by simp)
      | cons c t2 =>
        simp only [List.length_cons] at hn
        exact ih t2 (by omega) t ht

theorem findAllStrings_nil_no_pair : ∀ (n : Nat) (cs : Chars), cs.length ≤ n →
    findAllStrings cs = [] → ∀ a b : Chars, a ++ b = cs → parsePair b = none := by
  intro n
  induction n with
  | zero =>
    intro cs hn hnil a b hab
    cases cs with
    | nil =>
      have hb : b = [] := by
        cases b with
        | nil => rfl
        | cons x xs => simp at hab
      subst hb
      rfl
    | cons c t2 => simp at hn
  | succ n2 ih =>
    intro cs hn hnil a b hab
    rw [findAllStrings_eq] at hnil
    unfold findAllStep at hnil
    cases hp : parsePair cs with
    | some pr =>
      rw [hp] at hnil
      exact absurd hnil (by simp)
    | none =>
      rw [hp] at hnil
      cases cs with
      | nil =>
        have hb : b = [] := by
          cases a with
          | nil => simpa using hab
          | cons x xs => simp at hab
        subst hb
        rfl
      | cons c t2 =>
        simp only [List.length_cons] at hn
        cases a with
        | nil =>
          simp only [List.nil_append] at hab
          rw [hab]
          exact hp
        | cons x xs =>
          simp only [List.cons_append, List.cons.injEq] at hab
          exact ih t2 (by omega) hnil xs b hab.2

theorem skipWs_suffix (cs : Chars) : cs.takeWhile isWsChar ++ skipWs cs = cs := by
  unfold skipWs
  exact List.takeWhile_append_dropWhile isWsChar cs

theorem valid_findAll_ne_nil {cs : Chars} (hv : validSegment cs = true)
    (hsw : skipWs cs ≠ []) : findAllStrings cs ≠ [] := by
  intro hnil
  rw [validSegment_eq] at hv
  rw [if_neg hsw] at hv
  cases hp : parsePair (skipWs cs) with
  | none => rw [hp] at hv; simp at hv
  | some pr =>
    have := findAllStrings_nil_no_pair cs.length cs (Nat.le_refl _) hnil
      (cs.takeWhile isWsChar) (skipWs cs) (skipWs_suffix cs)
    rw [this] at hp
    cases hp

theorem newConstraint_token_ok {t : Chars} {p : PairM}
    (hp : parsePair t = some (p, [])) (hne : t ≠ []) :
    ∃ c : Constraint, newConstraint t = .ok c := by
  unfold newConstraint
  rw [if_neg hne, findFirstPair_eq]
  unfold findFirstStep
  rw [hp]
  exact ⟨_, rfl⟩

theorem mapM_newConstraint_ok : ∀ (ts : List Chars),
    (∀ t ∈ ts, ∃ c, newConstraint t = .ok c) →
    ∃ cs, ts.mapM newConstraint = Except.ok cs := by
  intro ts
  induction ts with
  | nil => intro _; exact ⟨[], rfl⟩
  | cons t rest ih =>
    intro h
    obtain ⟨c, hc⟩ := h t (List.mem_cons_self _ _)
    obtain ⟨cs2, hcs2⟩ := ih (fun t2 ht2 => h t2 (List.mem_cons_of_mem _ ht2))
    refine ⟨c :: cs2, ?_⟩
    rw [List.mapM_cons, hc, hcs2]
    rfl

theorem parseSegment_ok {vv : Chars} (hv : validSegment vv = true) :
    ∃ cs, parseSegment vv = .ok cs := by
  unfold parseSegment
  rw [if_neg (by rw [hv]; simp)]
  by_cases hss : findAllStrings vv = []
  · rw [if_pos hss]
    have hsw : skipWs vv = [] := by
      by_contra hsw
      exact valid_findAll_ne_nil hv hsw hss
    have htr : trimSpace vv = [] := by
      unfold trimSpace
      rw [hsw]
      rfl
    rw [htr]
    exact ⟨_, rfl⟩
  · rw [if_neg hss]
    refine mapM_newConstraint_ok _ ?_
    intro t ht
    obtain ⟨p, htp, hpp⟩ := findAllStrings_mem vv.length vv (Nat.le_refl _) t ht
    obtain ⟨_, _, _, _, hne⟩ := parsePair_sound hpp
    exact newConstraint_token_ok hpp (fun h0 => hne (by rw [← htp]; exact h0))

theorem ncLoop_first_invalid : ∀ (segs : List Chars) (seg : Chars),
    segs.find? (fun x => !validSegment x) = some seg →
    ncLoop segs = .error (("improper constraint: ").data ++ seg) := by
  intro segs
  induction segs with
  | nil => intro seg h; cases h
  | cons vv rest ih =>
    intro seg h
    cases hvv : validSegment vv with
    | false =>
      rw [List.find?_cons_of_pos _ (by rw [hvv]; rfl)] at h
      cases h
      rw [ncLoop]
      unfold parseSegment
      rw [if_pos hvv]
    | true =>
      rw [List.find?_cons_of_neg _ (by rw [hvv]; simp)] at h
      obtain ⟨cs, hcs⟩ := parseSegment_ok hvv
      rw [ncLoop, hcs, ih seg h]

/-! ## Claim theorems -/

/-- C6: whenever at least one OR-segment of the input fails the structural
validator, `NewConstraints` reports an error whose message is the text
"improper constraint: " followed by the offending segment verbatim, and the
`Constraints` value returned alongside it is the empty zero value; moreover,
every error outcome of `NewConstraints` comes with the empty zero
`Constraints` value, never a partially-parsed range expression. -/
theorem claim_C6_improper_error :
    (∀ (s : String) (cf : Conf),
        (∃ vv ∈ splitOnOr s.data, validSegment vv = false) →
        ∃ seg ∈ splitOnOr s.data, validSegment seg = false ∧
          NewConstraints s cf =
            (⟨[], defaultConf⟩, some (("improper constraint: ").data ++ seg))) ∧
    (∀ (s : String) (cf : Conf) (C : Constraints) (msg : Chars),
        NewConstraints s cf = (C, some msg) → C = ⟨[], defaultConf⟩) := by
  constructor
  · intro s cf h
    obtain ⟨vv, hmem, hvv⟩ := h
    have hsome : ((splitOnOr s.data).find? (fun x => !validSegment x)).isSome := by
      rw [List.find?_isSome]
      exact ⟨vv, hmem, by rw [hvv]; rfl⟩
    obtain ⟨seg, hseg⟩ := Option.isSome_iff_exists.mp hsome
    refine ⟨seg, List.mem_of_find?_eq_some hseg, ?_, ?_⟩
    · have hp := List.find?_some hseg
      simpa using hp
    · unfold NewConstraints
      rw [ncLoop_first_invalid _ _ hseg]
  · intro s cf C msg h
    unfold NewConstraints at h
    cases hl : ncLoop (splitOnOr s.data) with
    | error e =>
      rw [hl] at h
      dsimp only at h
      rw [Prod.mk.injEq] at h
      exact h.1.symm
    | ok css =>
      rw [hl] at h
      dsimp only at h
      rw [Prod.mk.injEq] at h
      cases h.2

/-- C6 witness: the input "1.2.3 & 2.0.0" (a single OR-segment with a
stray ampersand) fails the validator, and `NewConstraints` returns the
empty `Constraints` with the message naming that segment. -/
theorem claim_C6_improper_error_witness :
    ∃ seg ∈ splitOnOr ("1.2.3 & 2.0.0").data, validSegment seg = false ∧
      NewConstraints "1.2.3 & 2.0.0" defaultConf =
        (⟨[], defaultConf⟩, some (("improper constraint: ").data ++ seg)) :=
  claim_C6_improper_error.1 "1.2.3 & 2.0.0" defaultConf
    ⟨("1.2.3 & 2.0.0").data, by decide, by decide⟩


/-- C1: `Check(v)` is true exactly when some OR-alternative has all of
its comparator terms (evaluated through the pre-release gate, i.e.
`Constraint.check`) satisfied by `v`; with an empty alternative list it
returns false. -/
theorem claim_C1_check_or_over_and (cs : Constraints) (v : Version) :
    (cs.Check v = true ↔
      ∃ alt ∈ cs.constraints, ∀ c ∈ alt, c.check v cs.conf = true)
    ∧ (cs.constraints = [] → cs.Check v = false) := by
  constructor
  · simp [Constraints.Check, andCheck, List.any_eq_true, List.all_eq_true]
  · intro h
    simp [Constraints.Check, h]

/-- Witness for C1 at a concrete empty range expression. -/
theorem claim_C1_check_or_over_and_witness :
    (Constraints.mk [] defaultConf).Check ⟨.num 1, .num 0, .num 0, []⟩ = false :=
  (claim_C1_check_or_over_and ⟨[], defaultConf⟩ ⟨.num 1, .num 0, .num 0, []⟩).2 rfl

/-- C2: the pre-release gate.  (1) With pre-releases not included, a
pre-release candidate never satisfies a term whose bound is not a
pre-release.  (2) A bound that is both a pre-release and the universal
wildcard satisfies no candidate.  (3) Otherwise the term's result is
exactly its operator predicate applied to candidate, bound and
configuration. -/
theorem claim_C2_preRelease_gate :
    (∀ (c : Constraint) (v : Version) (cf : Conf),
      cf.includePreRelease = false → v.IsPreRelease = true →
      c.version.IsPreRelease = false → c.check v cf = false)
    ∧ (∀ (c : Constraint) (v : Version) (cf : Conf),
      c.version.IsPreRelease = true → c.version.IsAny = true →
      c.check v cf = false)
    ∧ (∀ (c : Constraint) (v : Version) (cf : Conf),
      ¬(cf.includePreRelease = false ∧ v.IsPreRelease = true ∧
          c.version.IsPreRelease = false) →
      ¬(c.version.IsPreRelease = true ∧ c.version.IsAny = true) →
      c.check v cf = opFunc c.operator v c.version cf) := by
  refine ⟨?_, ?_, ?_⟩
  · intro c v cf h1 h2 h3
    simp [Constraint.check, preCheck, h1, h2, h3]
  · intro c v cf h1 h2
    simp [Constraint.check, preCheck, h1, h2]
  · intro c v cf h1 h2
    simp only [Constraint.check, preCheck]
    have hc1 : (!cf.includePreRelease && (v.IsPreRelease && !c.version.IsPreRelease)) = false := by
      cases ha : cf.includePreRelease <;> cases hb : v.IsPreRelease <;>
        cases hc : c.version.IsPreRelease <;> simp_all
    have hc2 : (c.version.IsPreRelease && c.version.IsAny) = false := by
      cases hb : c.version.IsPreRelease <;> cases hc : c.version.IsAny <;> simp_all
    simp [hc1, hc2]

/-- Witness for C2 at concrete terms and candidates. -/
theorem claim_C2_preRelease_gate_witness :
    (Constraint.mk ⟨.num 1, .num 2, .num 3, []⟩ .eq []).check
        ⟨.num 1, .num 2, .num 3, [.str ['a']]⟩ ⟨false⟩ = false
    ∧ (Constraint.mk ⟨.any, .num 0, .num 0, [.str ['a']]⟩ .eq []).check
        ⟨.any, .num 0, .num 0, [.str ['a']]⟩ ⟨false⟩ = false
    ∧ (Constraint.mk ⟨.num 1, .num 2, .num 3, []⟩ .eq []).check
        ⟨.num 1, .num 2, .num 3, []⟩ ⟨false⟩ =
      opFunc .eq ⟨.num 1, .num 2, .num 3, []⟩ ⟨.num 1, .num 2, .num 3, []⟩ ⟨false⟩ :=
  ⟨claim_C2_preRelease_gate.1 _ _ _ rfl (by decide) (by decide),
   claim_C2_preRelease_gate.2.1 _ _ _ (by decide) (by decide),
   claim_C2_preRelease_gate.2.2 _ _ _ (by decide) (by decide)⟩

/-- C3: the tilde and caret operator predicates.  When bound and
candidate are both pre-releases and pre-releases are not included, the
upper bound is the bound's release projection; otherwise it is the
tilde/caret bump. -/
theorem claim_C3_tilde_caret :
    (∀ (v c : Version) (cf : Conf),
      cf.includePreRelease = false → c.IsPreRelease = true → v.IsPreRelease = true →
      constraintTilde v c cf = (v.GreaterThanOrEqual c && v.LessThan c.Release))
    ∧ (∀ (v c : Version) (cf : Conf),
      ¬(cf.includePreRelease = false ∧ c.IsPreRelease = true ∧ v.IsPreRelease = true) →
      constraintTilde v c cf = (v.GreaterThanOrEqual c && v.LessThan c.TildeBump))
    ∧ (∀ (v c : Version) (cf : Conf),
      cf.includePreRelease = false → c.IsPreRelease = true → v.IsPreRelease = true →
      constraintCaret v c cf = (v.GreaterThanOrEqual c && v.LessThan c.Release))
    ∧ (∀ (v c : Version) (cf : Conf),
      ¬(cf.includePreRelease = false ∧ c.IsPreRelease = true ∧ v.IsPreRelease = true) →
      constraintCaret v c cf = (v.GreaterThanOrEqual c && v.LessThan c.CaretBump)) := by
  refine ⟨?_, ?_, ?_, ?_⟩
  · intro v c cf h1 h2 h3
    simp [constraintTilde, h1, h2, h3]
  · intro v c cf h1
    have hc : (!cf.includePreRelease && (c.IsPreRelease && v.IsPreRelease)) = false := by
      cases ha : cf.includePreRelease <;> cases hb : c.IsPreRelease <;>
        cases hd : v.IsPreRelease <;> simp_all
    simp [constraintTilde, hc]
  · intro v c cf h1 h2 h3
    simp [constraintCaret, h1, h2, h3]
  · intro v c cf h1
    have hc : (!cf.includePreRelease && (c.IsPreRelease && v.IsPreRelease)) = false := by
      cases ha : cf.includePreRelease <;> cases hb : c.IsPreRelease <;>
        cases hd : v.IsPreRelease <;> simp_all
    simp [constraintCaret, hc]

/-- Witness for C3 at concrete versions: `~1.2.3-alpha` against
`1.2.3-beta` (both pre-release, default configuration) and `^1.2.3`
against `1.9.9`. -/
theorem claim_C3_tilde_caret_witness :
    constraintTilde ⟨.num 1, .num 2, .num 3, [.str ['b']]⟩
        ⟨.num 1, .num 2, .num 3, [.str ['a']]⟩ ⟨false⟩ =
      ((⟨.num 1, .num 2, .num 3, [.str ['b']]⟩ : Version).GreaterThanOrEqual
          ⟨.num 1, .num 2, .num 3, [.str ['a']]⟩ &&
        (⟨.num 1, .num 2, .num 3, [.str ['b']]⟩ : Version).LessThan
          (⟨.num 1, .num 2, .num 3, [.str ['a']]⟩ : Version).Release)
    ∧ constraintCaret ⟨.num 1, .num 9, .num 9, []⟩ ⟨.num 1, .num 2, .num 3, []⟩ ⟨false⟩ =
      ((⟨.num 1, .num 9, .num 9, []⟩ : Version).GreaterThanOrEqual
          ⟨.num 1, .num 2, .num 3, []⟩ &&
        (⟨.num 1, .num 9, .num 9, []⟩ : Version).LessThan
          (⟨.num 1, .num 2, .num 3, []⟩ : Version).CaretBump) :=
  ⟨claim_C3_tilde_caret.1 _ _ _ rfl (by decide) (by decide),
   claim_C3_tilde_caret.2.2.2 _ _ _ (by decide)⟩

/-- C4: the four ordering operator predicates: with both sides
pre-release and pre-releases not included, the order comparison is
restricted to the bound's release line; otherwise it is the plain order
comparison.  The spellings `>=`/`=>` and `<=`/`=<` resolve to the same
operator functions. -/
theorem claim_C4_ordering_operators :
    (∀ (v c : Version) (cf : Conf),
      cf.includePreRelease = false → c.IsPreRelease = true → v.IsPreRelease = true →
      constraintGreaterThan v c cf = (v.Release.Equal c.Release && v.GreaterThan c)
      ∧ constraintLessThan v c cf = (v.Release.Equal c.Release && v.LessThan c)
      ∧ constraintGreaterThanEqual v c cf =
        (v.Release.Equal c.Release && v.GreaterThanOrEqual c)
      ∧ constraintLessThanEqual v c cf =
        (v.Release.Equal c.Release && v.LessThanOrEqual c))
    ∧ (∀ (v c : Version) (cf : Conf),
      ¬(cf.includePreRelease = false ∧ c.IsPreRelease = true ∧ v.IsPreRelease = true) →
      constraintGreaterThan v c cf = v.GreaterThan c
      ∧ constraintLessThan v c cf = v.LessThan c
      ∧ constraintGreaterThanEqual v c cf = v.GreaterThanOrEqual c
      ∧ constraintLessThanEqual v c cf = v.LessThanOrEqual c)
    ∧ (constraintOperators ['>'] = some .gt
      ∧ constraintOperators ['<'] = some .lt
      ∧ constraintOperators ['>', '='] = some .gte
      ∧ constraintOperators ['=', '>'] = some .gte
      ∧ constraintOperators ['<', '='] = some .lte
      ∧ constraintOperators ['=', '<'] = some .lte)
    ∧ (opFunc .gt = constraintGreaterThan ∧ opFunc .lt = constraintLessThan
      ∧ opFunc .gte = constraintGreaterThanEqual
      ∧ opFunc .lte = constraintLessThanEqual) := by
  refine ⟨?_, ?_, by decide, rfl, rfl, rfl, rfl⟩
  · intro v c cf h1 h2 h3
    refine ⟨?_, ?_, ?_, ?_⟩ <;>
      simp [constraintGreaterThan, constraintLessThan, constraintGreaterThanEqual,
        constraintLessThanEqual, h1, h2, h3]
  · intro v c cf h1
    have hc : (!cf.includePreRelease && (c.IsPreRelease && v.IsPreRelease)) = false := by
      cases ha : cf.includePreRelease <;> cases hb : c.IsPreRelease <;>
        cases hd : v.IsPreRelease <;> simp_all
    refine ⟨?_, ?_, ?_, ?_⟩ <;>
      simp [constraintGreaterThan, constraintLessThan, constraintGreaterThanEqual,
        constraintLessThanEqual, hc]

/-- Witness for C4 at concrete versions: `>1.2.0-alpha` against
`1.2.0-beta` (both pre-release) and `<2.0.0` against `1.5.0`. -/
theorem claim_C4_ordering_operators_witness :
    constraintGreaterThan ⟨.num 1, .num 2, .num 0, [.str ['b']]⟩
        ⟨.num 1, .num 2, .num 0, [.str ['a']]⟩ ⟨false⟩ =
      ((⟨.num 1, .num 2, .num 0, [.str ['b']]⟩ : Version).Release.Equal
          (⟨.num 1, .num 2, .num 0, [.str ['a']]⟩ : Version).Release &&
        (⟨.num 1, .num 2, .num 0, [.str ['b']]⟩ : Version).GreaterThan
          ⟨.num 1, .num 2, .num 0, [.str ['a']]⟩)
    ∧ constraintLessThan ⟨.num 1, .num 5, .num 0, []⟩ ⟨.num 2, .num 0, .num 0, []⟩ ⟨false⟩ =
      (⟨.num 1, .num 5, .num 0, []⟩ : Version).LessThan ⟨.num 2, .num 0, .num 0, []⟩ :=
  ⟨(claim_C4_ordering_operators.1 _ _ _ rfl (by decide) (by decide)).1,
   ((claim_C4_ordering_operators.2.1 _ _ _ (by decide)).2.1)⟩

/-- C5: the empty range string parses to exactly one alternative with
one match-anything term (all components wildcard, pre-release wildcard,
operator `Eq`, empty original); checking any non-pre-release version
against it is true, a pre-release version is false under the default
gate, and any version is true when pre-releases are included. -/
theorem claim_C5_empty_range :
    (∀ cf : Conf, NewConstraints "" cf =
      (⟨[[⟨⟨.any, .any, .any, [.any]⟩, .eq, []⟩]], cf⟩, none))
    ∧ (∀ (cf : Conf) (v : Version), v.IsPreRelease = false →
      (NewConstraints "" cf).1.Check v = true)
    ∧ (∀ (cf : Conf) (v : Version), v.IsPreRelease = true →
      cf.includePreRelease = false → (NewConstraints "" cf).1.Check v = false)
    ∧ (∀ (cf : Conf) (v : Version), cf.includePreRelease = true →
      (NewConstraints "" cf).1.Check v = true) := by
  have hparse : ∀ cf : Conf, NewConstraints "" cf =
      (⟨[[⟨⟨.any, .any, .any, [.any]⟩, .eq, []⟩]], cf⟩, none) := fun _ => rfl
  have hbound : (⟨.any, .any, .any, [.any]⟩ : Version).IsPreRelease = false := by decide
  have heq : ∀ v : Version, v.Equal ⟨.any, .any, .any, [.any]⟩ = true := by
    intro v
    unfold Version.Equal Version.compare
    rw [partCompare_any_right, partCompare_any_right, partCompare_any_right,
      partsCompare_anyList]
    rfl
  refine ⟨hparse, ?_, ?_, ?_⟩
  · intro cf v hv
    rw [hparse cf]
    simp only [Constraints.Check, andCheck, List.any_cons, List.any_nil, List.all_cons,
      List.all_nil, Bool.and_true, Bool.or_false]
    simp [Constraint.check, preCheck, hv, hbound, constraintEqual, heq v, opFunc]
  · intro cf v hv hcf
    rw [hparse cf]
    simp only [Constraints.Check, andCheck, List.any_cons, List.any_nil, List.all_cons,
      List.all_nil, Bool.and_true, Bool.or_false]
    simp [Constraint.check, preCheck, hv, hcf, hbound]
  · intro cf v hcf
    rw [hparse cf]
    simp only [Constraints.Check, andCheck, List.any_cons, List.any_nil, List.all_cons,
      List.all_nil, Bool.and_true, Bool.or_false]
    simp [Constraint.check, preCheck, hcf, hbound, constraintEqual, heq v, opFunc]

/-- Witness for C5 at concrete versions `1.2.3` and `1.2.3-alpha`. -/
theorem claim_C5_empty_range_witness :
    (NewConstraints "" defaultConf).1.Check ⟨.num 1, .num 2, .num 3, []⟩ = true
    ∧ (NewConstraints "" defaultConf).1.Check
        ⟨.num 1, .num 2, .num 3, [.str ['a', 'l', 'p', 'h', 'a']]⟩ = false
    ∧ (NewConstraints "" ⟨true⟩).1.Check
        ⟨.num 1, .num 2, .num 3, [.str ['a', 'l', 'p', 'h', 'a']]⟩ = true :=
  ⟨claim_C5_empty_range.2.1 defaultConf _ (by decide),
   claim_C5_empty_range.2.2.1 defaultConf _ (by decide) rfl,
   claim_C5_empty_range.2.2.2 ⟨true⟩ _ rfl⟩

/-- C8: a token without operator is an equality constraint: the range
`1.2.3` parses to a single `Eq` term with bound `1.2.3`, is satisfied
exactly by candidates equal to the bound, hence true for `1.2.3` and
false for `1.2.4`. -/
theorem claim_C8_implicit_equality :
    NewConstraints "1.2.3" defaultConf =
      (⟨[[⟨⟨.num 1, .num 2, .num 3, []⟩, .eq, "1.2.3".data⟩]], defaultConf⟩, none)
    ∧ (∀ v : Version, (NewConstraints "1.2.3" defaultConf).1.Check v =
        v.Equal ⟨.num 1, .num 2, .num 3, []⟩)
    ∧ (NewConstraints "1.2.3" defaultConf).1.Check ⟨.num 1, .num 2, .num 3, []⟩ = true
    ∧ (NewConstraints "1.2.3" defaultConf).1.Check ⟨.num 1, .num 2, .num 4, []⟩ = false := by
  refine ⟨rfl, ?_, by decide, by decide⟩
  intro v
  show (Constraints.Check ⟨[[⟨⟨.num 1, .num 2, .num 3, []⟩, .eq, "1.2.3".data⟩]],
    defaultConf⟩ v) = v.Equal ⟨.num 1, .num 2, .num 3, []⟩
  simp only [Constraints.Check, andCheck, List.any_cons, List.any_nil, List.all_cons,
    List.all_nil, Bool.and_true, Bool.or_false]
  have hb : (⟨.num 1, .num 2, .num 3, []⟩ : Version).IsPreRelease = false := by decide
  cases hv : v.IsPreRelease
  · simp [Constraint.check, preCheck, hv, hb, opFunc, constraintEqual]
  · have hne : v.preRelease ≠ [] ∧ v.preRelease.any Part.isAnyP = false :=
      isPreRelease_spec hv
    have hlt : partsCompare v.preRelease [] = .lt := partsCompare_pre_nil hne.1 hne.2
    have hneq : v.Equal ⟨.num 1, .num 2, .num 3, []⟩ = false := by
      unfold Version.Equal Version.compare
      simp only [hlt]
      cases h1 : partCompare v.major (Part.num 1) <;>
        cases h2 : partCompare v.minor (Part.num 2) <;>
        cases h3 : partCompare v.patch (Part.num 3) <;> rfl
    rw [hneq]
    simp [Constraint.check, preCheck, hv, hb, opFunc, constraintEqual, hneq]

/-- C7 (failing input): the claim says a segment whose version
components contain any character other than integer digits or a wildcard
symbol (`*`, `x`, `X`) is rejected; yet the segment `1|` is accepted by
`NewConstraints` — the component character class of `cvRegex`,
`[0-9|x|X|\*]`, also contains the literal `|` — and produces a term whose
bound has the non-numeric, non-wildcard major component `1|`. -/
theorem claim_C7_pipe_component_accepted :
    (NewConstraints "1|" defaultConf).2 = none
    ∧ (NewConstraints "1|" defaultConf).1.constraints =
        [[⟨⟨.str ['1', '|'], .any, .any, []⟩, .eq, ['1', '|']⟩]]
    ∧ ('|' ∈ "1|".data ∧ '|'.isDigit = false ∧ '|' ≠ '*' ∧ '|' ≠ 'x' ∧ '|' ≠ 'X') := by
  refine ⟨rfl, rfl, by decide, by decide, by decide, by decide, by decide⟩

/-- C9 (failing input): the range `1| || 2` parses; its candidate
`2.0.0` is matched (second alternative).  Its serialization is
`1||| 2`, in which the `|` ending the first term's original text merges
with the OR separator; re-parsing with the same options moves the split
point, and the re-parsed range rejects `2.0.0`.  So serialization
followed by re-parsing does not preserve `Check` for every version. -/
theorem claim_C9_roundtrip_divergence :
    (NewConstraints "1| || 2" defaultConf).2 = none
    ∧ (NewConstraints "1| || 2" defaultConf).1.Check ⟨.num 2, .num 0, .num 0, []⟩ = true
    ∧ (NewConstraints "1| || 2" defaultConf).1.StringC = "1||| 2".data
    ∧ (NewConstraints "1||| 2" defaultConf).2 = none
    ∧ (NewConstraints "1||| 2" defaultConf).1.Check ⟨.num 2, .num 0, .num 0, []⟩ = false := by
  refine ⟨rfl, by decide, rfl, rfl, by decide⟩

/-- C10 (counterexample): the input `1.2.3,` is parsed successfully by
`NewConstraints`, but appending a trailing comma to it yields `1.2.3,,`,
which is rejected: the validator allows at most one comma after each
operator/version pair, so the claim fails for inputs whose last segment
already ends with a comma. -/
theorem claim_C10_trailing_comma_counterexample :
    (NewConstraints "1.2.3," defaultConf).2 = none
    ∧ (NewConstraints ("1.2.3," ++ ",") defaultConf).2 =
        some ("improper constraint: 1.2.3,,".data) := by
  refine ⟨rfl, by decide⟩

/-! ## Trailing-comma stability of the validator, tokenizer and parser -/

theorem skipWs_append_of_ne {cs : Chars} (h : skipWs cs ≠ []) (l2 : Chars) :
    skipWs (cs ++ l2) = skipWs cs ++ l2 := by
  unfold skipWs at h ⊢
  rw [List.dropWhile_append, if_neg (by simpa [List.isEmpty_iff] using h)]

theorem skipWs_append_of_nil {cs : Chars} (h : skipWs cs = []) (l2 : Chars) :
    skipWs (cs ++ l2) = skipWs l2 := by
  unfold skipWs at h ⊢
  rw [List.dropWhile_append, if_pos (by simpa [List.isEmpty_iff] using h)]

theorem trimTrailing_getLast (cs : Chars) :
    (trimTrailing cs).getLast? = (cs.reverse.dropWhile isWsChar).head? :=
  List.getLast?_reverse _

theorem trimTrailing_nil_iff (cs : Chars) : trimTrailing cs = [] ↔ skipWs cs = [] := by
  unfold trimTrailing skipWs
  rw [List.reverse_eq_nil_iff, List.dropWhile_eq_nil_iff, List.dropWhile_eq_nil_iff]
  constructor
  · intro h x hx
    exact h x (List.mem_reverse.mpr hx)
  · intro h x hx
    exact h x (List.mem_reverse.mp hx)

theorem getLast_trim_append {b : Chars} (a : Chars) (hb : skipWs b ≠ []) :
    (trimTrailing (a ++ b)).getLast? = (trimTrailing b).getLast? := by
  rw [trimTrailing_getLast, trimTrailing_getLast, List.reverse_append,
    List.dropWhile_append]
  have hbr : ¬(b.reverse.dropWhile isWsChar).isEmpty = true := by
    rw [List.isEmpty_iff]
    intro hnil
    apply hb
    unfold skipWs
    rw [List.dropWhile_eq_nil_iff] at hnil ⊢
    intro x hx
    exact hnil x (List.mem_reverse.mpr hx)
  rw [if_neg hbr]
  cases hdw : b.reverse.dropWhile isWsChar with
  | nil => rw [List.isEmpty_iff] at hbr; exact absurd hdw hbr
  | cons x t => simp

theorem getLast_trim_comma {r2 : Chars} (h : skipWs r2 = []) :
    (trimTrailing (',' :: r2)).getLast? = some ',' := by
  rw [trimTrailing_getLast]
  rw [show (',' :: r2).reverse = r2.reverse ++ [','] by simp]
  rw [List.dropWhile_append]
  have hbr : (r2.reverse.dropWhile isWsChar).isEmpty = true := by
    unfold skipWs at h
    rw [List.isEmpty_iff, List.dropWhile_eq_nil_iff] at *
    intro x hx
    exact h x (List.mem_reverse.mp hx)
  rw [if_pos hbr]
  rfl

theorem skipWs_idem (cs : Chars) : skipWs (skipWs cs) = skipWs cs := by
  unfold skipWs
  induction cs with
  | nil => rfl
  | cons c t ih =>
    rw [List.dropWhile_cons]
    by_cases hc : isWsChar c = true
    · rw [if_pos hc]; exact ih
    · rw [if_neg hc, List.dropWhile_cons, if_neg hc]

theorem skipWs_comma_cons (r2 : Chars) : skipWs (',' :: r2) = ',' :: r2 := by
  unfold skipWs
  rw [List.dropWhile_cons, if_neg (by decide)]

theorem skipWs_decomp {cs : Chars} {pr : PairM × Chars}
    (hp : parsePair (skipWs cs) = some pr) :
    cs = (cs.takeWhile isWsChar ++ pr.1.text ++ pr.2.takeWhile isWsChar) ++ skipWs pr.2 := by
  have h1 : cs.takeWhile isWsChar ++ skipWs cs = cs := skipWs_suffix cs
  have h2 : pr.1.text ++ pr.2 = skipWs cs := (parsePair_sound (p := pr.1) (r := pr.2) (by rw [hp])).2.2.2.1
  have h3 : pr.2.takeWhile isWsChar ++ skipWs pr.2 = pr.2 := skipWs_suffix pr.2
  rw [List.append_assoc, List.append_assoc, h3, h2, h1]

theorem validSegment_comma_aux : ∀ (n : Nat) (cs : Chars), cs.length ≤ n →
    validSegment cs = true → skipWs cs ≠ [] →
    (trimTrailing cs).getLast? ≠ some ',' →
    validSegment (cs ++ [',']) = true := by
  intro n
  induction n with
  | zero =>
    intro cs hn hv hws hlast
    cases cs with
    | nil => exact absurd rfl hws
    | cons c t => simp at hn
  | succ n2 ih =>
    intro cs hn hv hws hlast
    rw [validSegment_eq] at hv
    rw [if_neg hws] at hv
    rw [validSegment_eq, skipWs_append_of_ne hws, if_neg (by simp)]
    rw [parsePair_comma]
    cases hp : parsePair (skipWs cs) with
    | none =>
      rw [hp] at hv
      dsimp only at hv
      cases hv
    | some pr =>
      rw [hp] at hv
      dsimp only [Option.map] at hv ⊢
      have hlen : pr.2.length < (skipWs cs).length :=
        parsePair_length (p := pr.1) (r := pr.2) (by rw [hp])
      have hsl : (skipWs cs).length ≤ cs.length := skipWs_length cs
      have hrl : (skipWs pr.2).length ≤ pr.2.length := skipWs_length pr.2
      by_cases hr : skipWs pr.2 = []
      · rw [skipWs_append_of_nil hr, skipWs_comma_cons]
        decide
      · rw [skipWs_append_of_ne hr]
        by_cases hh : (skipWs pr.2).head? = some ','
        · rw [if_pos hh] at hv
          obtain ⟨l2, hl2⟩ : ∃ l2, skipWs pr.2 = ',' :: l2 := by
            cases hsk : skipWs pr.2 with
            | nil => exact absurd hsk hr
            | cons a t =>
              rw [hsk, List.head?_cons, Option.some.injEq] at hh
              exact ⟨t, by rw [hh]⟩
          have hdecomp := skipWs_decomp hp
          rw [hl2] at hdecomp
          have hl2ne : skipWs (',' :: l2) ≠ [] := by rw [skipWs_comma_cons]; simp
          have hcs_last : (trimTrailing cs).getLast? = (trimTrailing (',' :: l2)).getLast? := by
            conv_lhs => rw [hdecomp]
            exact getLast_trim_append _ hl2ne
          have hskl2 : skipWs l2 ≠ [] := by
            intro hnil
            apply hlast
            rw [hcs_last, getLast_trim_comma hnil]
          have hlast2 : (trimTrailing l2).getLast? ≠ some ',' := by
            rw [show (',' :: l2) = [','] ++ l2 from rfl] at hcs_last
            rw [hcs_last, getLast_trim_append [','] hskl2] at hlast
            exact hlast
          rw [hl2] at hv ⊢
          rw [List.cons_append, List.head?_cons]
          rw [if_pos rfl]
          dsimp only [List.tail_cons] at hv ⊢
          have hfuel : l2.length ≤ n2 := by
            have : (',' :: l2).length ≤ pr.2.length := hl2 ▸ hrl
            simp only [List.length_cons] at this
            omega
          exact ih l2 hfuel hv hskl2 hlast2
        · rw [if_neg hh] at hv
          have hdecomp := skipWs_decomp hp
          have hss : skipWs (skipWs pr.2) = skipWs pr.2 := skipWs_idem pr.2
          have hne2 : skipWs (skipWs pr.2) ≠ [] := by rw [hss]; exact hr
          have hcs_last : (trimTrailing cs).getLast? = (trimTrailing (skipWs pr.2)).getLast? := by
            conv_lhs => rw [hdecomp]
            exact getLast_trim_append _ hne2
          have hh2 : (skipWs pr.2 ++ [',']).head? ≠ some ',' := by
            cases hsk : skipWs pr.2 with
            | nil => exact absurd hsk hr
            | cons a t =>
              rw [hsk, List.head?_cons] at hh
              rw [List.cons_append, List.head?_cons]
              exact hh
          rw [if_neg hh2]
          have hfuel : (skipWs pr.2).length ≤ n2 := by omega
          exact ih (skipWs pr.2) hfuel hv (by rw [hss]; exact hr)
            (by rw [← hcs_last]; exact hlast)

theorem findAllStrings_comma : ∀ (n : Nat) (cs : Chars), cs.length ≤ n →
    findAllStrings (cs ++ [',']) = findAllStrings cs := by
  intro n
  induction n with
  | zero =>
    intro cs hn
    cases cs with
    | nil => decide
    | cons c t => simp at hn
  | succ n2 ih =>
    intro cs hn
    rw [findAllStrings_eq (cs ++ [',']), findAllStrings_eq cs]
    unfold findAllStep
    rw [parsePair_comma]
    cases hp : parsePair cs with
    | some pr =>
      dsimp only [Option.map]
      have hlen : pr.2.length < cs.length :=
        parsePair_length (p := pr.1) (r := pr.2) (by rw [hp])
      rw [ih pr.2 (by omega)]
    | none =>
      dsimp only [Option.map]
      cases cs with
      | nil => rfl
      | cons c t =>
        rw [List.cons_append]
        dsimp only
        exact ih t (by simpa using hn)

theorem splitOnOr_ne_nil : ∀ cs : Chars, splitOnOr cs ≠ [] := by
  intro cs
  induction cs using splitOnOr.induct with
  | case1 => simp [splitOnOr]
  | case2 rest ih => simp [splitOnOr]
  | case3 c rest h hnil ih => exact absurd hnil ih
  | case4 c rest h s ss hss ih =>
    rw [splitOnOr.eq_3 c rest (fun r2 hc hr => h r2 hc hr), hss]
    simp

theorem splitOnOr_comma : ∀ (cs : Chars) (i0 : List Chars) (l0 : Chars),
    splitOnOr cs = i0 ++ [l0] →
    splitOnOr (cs ++ [',']) = i0 ++ [l0 ++ [',']] := by
  intro cs
  induction cs using splitOnOr.induct with
  | case1 =>
    intro i0 l0 hsp
    rw [show splitOnOr [] = [] ++ [([] : Chars)] from rfl] at hsp
    have h1 : i0 = [] ∧ l0 = [] := by
      cases i0 with
      | nil => simpa using hsp.symm
      | cons x xs =>
        rw [List.cons_append] at hsp
        have := congrArg List.length hsp
        simp at this
    rw [h1.1, h1.2]
    decide
  | case2 rest ih =>
    intro i0 l0 hsp
    rw [show ('|' :: '|' :: rest) ++ [','] = '|' :: '|' :: (rest ++ [',']) from rfl]
    rw [splitOnOr] at hsp ⊢
    cases i0 with
    | nil =>
      simp only [List.nil_append] at hsp
      have h2 : splitOnOr rest = [] := by
        have := congrArg List.tail hsp
        simpa using this
      exact absurd h2 (splitOnOr_ne_nil rest)
    | cons x xs =>
      rw [List.cons_append] at hsp
      have hx : x = [] ∧ splitOnOr rest = xs ++ [l0] := by
        constructor
        · exact (List.cons.injEq _ _ _ _).mp hsp |>.1.symm
        · exact (List.cons.injEq _ _ _ _).mp hsp |>.2
      rw [ih xs l0 hx.2, hx.1, List.cons_append]
  | case3 c rest h hnil ih => exact absurd hnil (splitOnOr_ne_nil rest)
  | case4 c rest h s ss hss ih =>
    intro i0 l0 hsp
    have hguard : ∀ r2 : Chars, c = '|' → rest ++ [','] = '|' :: r2 → False := by
      intro r2 hc hr
      cases rest with
      | nil =>
        simp only [List.nil_append, List.cons.injEq] at hr
        exact absurd hr.1 (by decide)
      | cons x t =>
        rw [List.cons_append] at hr
        have hx := (List.cons.injEq _ _ _ _).mp hr
        exact h t hc (by rw [hx.1])
    rw [splitOnOr.eq_3 c rest (fun r2 hc hr => h r2 hc hr), hss] at hsp
    rw [show (c :: rest) ++ [','] = c :: (rest ++ [',']) from rfl]
    rw [splitOnOr.eq_3 c (rest ++ [',']) hguard]
    cases i0 with
    | nil =>
      simp only [List.nil_append] at hsp
      have hc : c :: s = l0 ∧ ss = [] := by
        have := (List.cons.injEq _ _ _ _).mp hsp
        exact ⟨this.1, this.2⟩
      rw [ih [] s (by rw [hss, hc.2]; rfl)]
      rw [← hc.1]
      simp
    | cons x xs =>
      rw [List.cons_append] at hsp
      have hx := (List.cons.injEq _ _ _ _).mp hsp
      have hrest : splitOnOr rest = (s :: xs) ++ [l0] := by
        rw [hss, hx.2]
        rfl
      rw [ih (s :: xs) l0 hrest]
      rw [← hx.1]
      rfl

theorem parseSegment_ok_valid {vv : Chars} {cs : List Constraint}
    (h : parseSegment vv = .ok cs) : validSegment vv = true := by
  unfold parseSegment at h
  cases hv : validSegment vv with
  | false => rw [if_pos hv] at h; cases h
  | true => rfl

theorem parseSegment_comma {vv : Chars}
    (hv : validSegment vv = true) (hws : skipWs vv ≠ [])
    (hlast : (trimTrailing vv).getLast? ≠ some ',') :
    parseSegment (vv ++ [',']) = parseSegment vv := by
  have hv2 : validSegment (vv ++ [',']) = true :=
    validSegment_comma_aux vv.length vv (Nat.le_refl _) hv hws hlast
  have hfa : findAllStrings (vv ++ [',']) = findAllStrings vv :=
    findAllStrings_comma vv.length vv (Nat.le_refl _)
  have hne : findAllStrings vv ≠ [] := valid_findAll_ne_nil hv hws
  rw [parseSegment, parseSegment, hv2, hv, hfa]
  simp [hne]

theorem ncLoop_ok_last : ∀ (i0 : List Chars) (l0 : Chars)
    (css : List (List Constraint)),
    ncLoop (i0 ++ [l0]) = .ok css → ∃ cs, parseSegment l0 = .ok cs := by
  intro i0
  induction i0 with
  | nil =>
    intro l0 css h
    rw [List.nil_append, ncLoop] at h
    cases hp : parseSegment l0 with
    | error e => rw [hp] at h; cases h
    | ok cs => exact ⟨cs, rfl⟩
  | cons vv rest ih =>
    intro l0 css h
    rw [List.cons_append, ncLoop] at h
    cases hp : parseSegment vv with
    | error e => rw [hp] at h; cases h
    | ok cs =>
      rw [hp] at h
      dsimp only at h
      cases hl : ncLoop (rest ++ [l0]) with
      | error e => rw [hl] at h; cases h
      | ok css2 => exact ih l0 css2 hl

theorem ncLoop_congr_last : ∀ (i0 : List Chars) (l0 l1 : Chars),
    parseSegment l1 = parseSegment l0 →
    ncLoop (i0 ++ [l1]) = ncLoop (i0 ++ [l0]) := by
  intro i0
  induction i0 with
  | nil =>
    intro l0 l1 h
    rw [List.nil_append, List.nil_append]
    conv_lhs => rw [ncLoop]
    conv_rhs => rw [ncLoop]
    rw [h]
  | cons vv rest ih =>
    intro l0 l1 h
    rw [List.cons_append, List.cons_append]
    conv_lhs => rw [ncLoop]
    conv_rhs => rw [ncLoop]
    rw [ih l0 l1 h]

/-- C10 (amended): appending a trailing comma to a successfully parsed
range expression leaves the parse entirely unchanged, provided the last
OR-segment still contains a token once trailing whitespace is removed and
does not already end in a comma: the validator permits exactly one
optional comma after each (operator, version) pair, so a second trailing
comma (or a comma after an empty segment) is rejected, but otherwise the
tokenizer ignores the extra comma and the same comparator terms are
produced. -/
theorem claim_C10_trailing_comma_amended :
    ∀ (s : String) (cf : Conf) (i0 : List Chars) (l0 : Chars),
      (NewConstraints s cf).2 = none →
      splitOnOr s.data = i0 ++ [l0] →
      trimTrailing l0 ≠ [] →
      (trimTrailing l0).getLast? ≠ some ',' →
      NewConstraints (s ++ ",") cf = NewConstraints s cf := by
  intro s cf i0 l0 hok hsp htr hlast
  have hws : skipWs l0 ≠ [] := by
    intro h
    exact htr ((trimTrailing_nil_iff l0).mpr h)
  obtain ⟨css, hcss⟩ : ∃ css, ncLoop (splitOnOr s.data) = .ok css := by
    cases hl : ncLoop (splitOnOr s.data) with
    | error e =>
      unfold NewConstraints at hok
      rw [hl] at hok
      dsimp only at hok
      cases hok
    | ok css => exact ⟨css, rfl⟩
  rw [hsp] at hcss
  obtain ⟨cs0, hps⟩ := ncLoop_ok_last i0 l0 css hcss
  have hvalid : validSegment l0 = true := parseSegment_ok_valid hps
  have hpeq : parseSegment (l0 ++ [',']) = parseSegment l0 :=
    parseSegment_comma hvalid hws hlast
  have hsdata : (s ++ ",").data = s.data ++ [','] := by
    rw [String.data_append]
  have hsp2 : splitOnOr ((s ++ ",").data) = i0 ++ [l0 ++ [',']] := by
    rw [hsdata]
    exact splitOnOr_comma s.data i0 l0 hsp
  unfold NewConstraints
  rw [hsp2, hsp, ncLoop_congr_last i0 l0 (l0 ++ [',']) hpeq]

theorem claim_C10_trailing_comma_amended_witness :
    NewConstraints (">=1.0.0, <2.0.0" ++ ",") defaultConf =
      NewConstraints ">=1.0.0, <2.0.0" defaultConf :=
  claim_C10_trailing_comma_amended ">=1.0.0, <2.0.0" defaultConf []
    (">=1.0.0, <2.0.0").data rfl rfl (by decide) (by decide)
